import Mathlib

/-!
findpath: grid A* search and the selection handling of the scene.

A shallow embedding of `src/pathfinding.cpp` (`manhattanDistance`, `isValid`,
`directions`, `a_star_search`) and of the selection part of `src/scene.cpp`
(`Scene::clearScene`, `Scene::startAnimated`, `Scene::mousePressEvent`).

Conventions of the embedding.

* C++ `int` coordinates are unbounded integers: signed overflow is undefined in
  C++, so the embedding describes the executions that are free of it.
* `g_score` holds `float` values in the source.  Every value it ever holds is a
  small non-negative whole number (a step count), which `float` represents
  exactly below `2^24`; the embedding uses integers for them.
* `grid.size()` and `grid[0].size()` reach `isValid` as `int`; the embedding takes
  them as the exact sizes (sizes below `2^31`).
* A read outside a `std::vector` is undefined behaviour; the embedding makes it
  observable: `isValid` returns `none` and the search returns `Outcome.fault`.
* The two `while` loops of `a_star_search` are run with a step budget
  (`fuel`); `Outcome.unfinished` means the budget ran out.
-/

namespace FindPath

/-! ## Data model -/

/-- Modelled from the spec: the `Node` type of the header `pathfinding.h`, which is
not among the sources.  A node is a coordinate pair together with the bookkeeping
fields `g`, `h` and `f`; `Node{x, y}` leaves the bookkeeping fields at zero. -/
structure Node where
  x : Int
  y : Int
  g : Int := 0
  h : Int := 0
  f : Int := 0
deriving DecidableEq, Repr

/-- Coordinates of a cell. -/
abbrev Coord := Int × Int

/-- Modelled from the spec: identity of a `Node` ("two nodes are equal iff their
coordinates are equal"); the key under which the hash maps store a node. -/
def Node.coord (n : Node) : Coord := (n.x, n.y)

/-- Modelled from the spec: the value-initialised `Node` that
`std::unordered_map::operator[]` inserts for an absent key. -/
def Node.zero : Node := { x := 0, y := 0 }

/-- The occupancy grid `std::vector<std::vector<bool>>`; `true` is blocked. -/
abbrev Grid := List (List Bool)

/-- The grid is a full rectangle of `W` columns `grid[x]`, each of `H` flags. -/
def Rect (W H : Nat) (grid : Grid) : Prop :=
  grid.length = W ∧ ∀ col ∈ grid, col.length = H

instance (W H : Nat) (grid : Grid) : Decidable (Rect W H grid) :=
  inferInstanceAs (Decidable (grid.length = W ∧ ∀ col ∈ grid, col.length = H))

/-! ## `pathfinding.cpp` -/

/-- `manhattanDistance(from, to)`: `abs(from.x - to.x) + abs(from.y - to.y)`. -/
def manhattanDistance (a b : Node) : Int :=
  |a.x - b.x| + |a.y - b.y|

/-- The read `grid[x][y]` for non-negative `x`, `y`; `none` when an index is
outside its vector. -/
def gridAt (grid : Grid) (x y : Int) : Option Bool :=
  match grid[x.toNat]? with
  | none => none
  | some col => col[y.toNat]?

/-- `isValid(x, y, width, height, grid)`:
`x >= 0 && x < width && y >= 0 && y < height && !grid[x][y]`, with the
short-circuit evaluation of `&&`: the grid is read only after the four
comparisons held.  `none` is a read outside the grid. -/
def isValid (x y width height : Int) (grid : Grid) : Option Bool :=
  if x ≥ 0 ∧ x < width ∧ y ≥ 0 ∧ y < height then
    match gridAt grid x y with
    | none => none
    | some blocked => some (!blocked)
  else some false

/-- `directions`: `{0, 1}, {1, 0}, {0, -1}, {-1, 0}`. -/
def directions : List (Int × Int) := [(0, 1), (1, 0), (0, -1), (-1, 0)]

/-- Modelled from the spec: the frontier `std::priority_queue<Node>`.  Its
comparator is `Node::operator<` of the absent header; the spec orders the
frontier by ascending `f` and leaves the order among equal `f` open.  The queue
is therefore an interface: `push` and `pop` act on the stored nodes, and
`Frontier.Lawful` is all that is assumed of them. -/
structure Frontier where
  push : List Node → Node → List Node
  pop : List Node → Option (Node × List Node)

/-- Modelled from the spec: `push` adds exactly the pushed node, `pop` (the pair
`top()`, `pop()`) removes exactly one stored node, one of least `f`, and fails
only on the empty queue. -/
structure Frontier.Lawful (q : Frontier) : Prop where
  push_perm : ∀ l n, (q.push l n).Perm (n :: l)
  pop_some : ∀ l, l ≠ [] → ∃ n r, q.pop l = some (n, r)
  pop_perm : ∀ l n r, q.pop l = some (n, r) → l.Perm (n :: r)
  pop_min : ∀ l n r, q.pop l = some (n, r) → ∀ m ∈ l, n.f ≤ m.f

/-- Removal of the first node of least `f` from a list. -/
def popMin : List Node → Option (Node × List Node)
  | [] => none
  | n :: t =>
    match popMin t with
    | none => some (n, [])
    | some (m, r) => if n.f ≤ m.f then some (n, t) else some (m, n :: r)

/-- A concrete frontier: nodes are kept in insertion order and the earliest
inserted node of least `f` is popped. -/
def fifoFrontier : Frontier where
  push l n := l ++ [n]
  pop := popMin

/-- The three local containers of `a_star_search`. -/
structure SearchState where
  open_set : List Node
  came_from : Coord → Option Node
  g_score : Coord → Option Int

/-- Assignment `m[k] = v` on a hash map. -/
def setAt {V : Type} (m : Coord → Option V) (k : Coord) (v : V) : Coord → Option V :=
  fun c => if c = k then some v else m c

/-- What a run of `a_star_search` yields. -/
inductive Outcome where
  | path (p : List Node)
  | fault
  | unfinished
deriving DecidableEq, Repr

/-- The body of `for (const auto& [dx, dy] : directions)` for one direction, lines
85-98.  `none` is a read outside the grid (`grid[0]` of an empty grid, or inside
`isValid`). -/
def visit (q : Frontier) (grid : Grid) (end_ current : Node) (st : SearchState)
    (d : Int × Int) : Option SearchState :=
  let nx := current.x + d.1
  let ny := current.y + d.2
  match grid.head? with
  | none => none
  | some col0 =>
    match isValid nx ny grid.length col0.length grid with
    | none => none
    | some false => some st
    | some true =>
      -- `g_score[current]` inserts 0 when the key is absent
      let gs := match st.g_score current.coord with
        | some _ => st.g_score
        | none => setAt st.g_score current.coord 0
      let tentative_g_score :=
        (gs current.coord).getD 0 + manhattanDistance current { x := nx, y := ny }
      let improve : Bool := match gs (nx, ny) with
        | none => true
        | some old => decide (tentative_g_score < old)
      if improve then
        let h := manhattanDistance { x := nx, y := ny } end_
        let neighbor : Node :=
          { x := nx, y := ny, g := tentative_g_score, h := h, f := tentative_g_score + h }
        some { open_set := q.push st.open_set neighbor
               came_from := setAt st.came_from (nx, ny) current
               g_score := setAt gs (nx, ny) tentative_g_score }
      else some { st with g_score := gs }

/-- The whole `for` loop over `directions` for the popped node `current`. -/
def expand (q : Frontier) (grid : Grid) (end_ current : Node) (st : SearchState) :
    Option SearchState :=
  directions.foldlM (visit q grid end_ current) st

/-- The reconstruction loop, lines 76-80.  The vector `path` is `pre ++ [back]`:
while `back` is not at `start`, `came_from[back]` is appended; then the vector is
reversed. -/
def reconstruct (start : Node) (came_from : Coord → Option Node) :
    Nat → List Node → Node → Option (List Node)
  | 0, _, _ => none
  | fuel + 1, pre, back =>
    if back.x ≠ start.x ∨ back.y ≠ start.y then
      reconstruct start came_from fuel (pre ++ [back]) ((came_from back.coord).getD Node.zero)
    else some (pre ++ [back]).reverse

/-- The main loop `while (!open_set.empty())`, lines 72-101. -/
def searchLoop (q : Frontier) (grid : Grid) (start end_ : Node) (rfuel : Nat) :
    Nat → SearchState → Outcome
  | 0, _ => .unfinished
  | fuel + 1, st =>
    match q.pop st.open_set with
    | none => .path []
    | some (current, rest) =>
      if current.x = end_.x ∧ current.y = end_.y then
        match reconstruct start st.came_from rfuel [] end_ with
        | none => .unfinished
        | some p => .path p
      else
        match expand q grid end_ current { st with open_set := rest } with
        | none => .fault
        | some st' => searchLoop q grid start end_ rfuel fuel st'

/-- The state after lines 68-70: `g_score[start] = 0; open_set.push(start);
came_from[start] = start`. -/
def initState (q : Frontier) (start : Node) : SearchState where
  open_set := q.push [] start
  came_from := setAt (fun _ => none) start.coord start
  g_score := setAt (fun _ => none) start.coord 0

/-- `a_star_search(grid, start, end)`, both loops run with the budget `fuel`. -/
def a_star_search (q : Frontier) (fuel : Nat) (grid : Grid) (start end_ : Node) : Outcome :=
  searchLoop q grid start end_ fuel fuel (initState q start)

/-! ## Reachability on the grid -/

/-- The cell is in range and free: `grid[x][y]` exists and is `false`. -/
def Valid (grid : Grid) (c : Coord) : Prop :=
  0 ≤ c.1 ∧ 0 ≤ c.2 ∧ gridAt grid c.1 c.2 = some false

instance (grid : Grid) (c : Coord) : Decidable (Valid grid c) :=
  inferInstanceAs (Decidable (0 ≤ c.1 ∧ 0 ≤ c.2 ∧ gridAt grid c.1 c.2 = some false))

/-- The four cells one step away from `c`, in the order of `directions`. -/
def neighbors (c : Coord) : List Coord :=
  directions.map (fun d => (c.1 + d.1, c.2 + d.2))

/-- One move of the search: to a 4-adjacent cell that is in range and free. -/
def Step (grid : Grid) (a b : Coord) : Prop :=
  b ∈ neighbors a ∧ Valid grid b

instance (grid : Grid) (a b : Coord) : Decidable (Step grid a b) :=
  inferInstanceAs (Decidable (b ∈ neighbors a ∧ Valid grid b))

/-- A sequence of cells in which every cell after the first is reached by a `Step`
from the one before it. -/
def IsWalk (grid : Grid) : List Coord → Prop
  | [] => True
  | [_] => True
  | a :: b :: t => Step grid a b ∧ IsWalk grid (b :: t)

instance instDecidableIsWalk (grid : Grid) : (w : List Coord) → Decidable (IsWalk grid w)
  | [] => isTrue trivial
  | [_] => isTrue trivial
  | a :: b :: t =>
    match (inferInstance : Decidable (Step grid a b)), instDecidableIsWalk grid (b :: t) with
    | isTrue h1, isTrue h2 => isTrue ⟨h1, h2⟩
    | isFalse h1, _ => isFalse (fun h => h1 h.1)
    | _, isFalse h2 => isFalse (fun h => h2 h.2)

/-- Some walk leads from `a` to `b`. -/
def Reachable (grid : Grid) (a b : Coord) : Prop :=
  ∃ w : List Coord, IsWalk grid w ∧ w.head? = some a ∧ w.getLast? = some b

/-! ## Vocabulary of the proofs -/

/-- Manhattan distance between two cells; `manhattanDistance` on coordinates. -/
def hDist (c e : Coord) : Int :=
  |c.1 - e.1| + |c.2 - e.2|

/-- The node that `visit` pushes for the neighbour at `c` reached at cost `t`. -/
def mkNeighbor (end_ : Node) (c : Coord) (t : Int) : Node :=
  { x := c.1, y := c.2, g := t, h := hDist c end_.coord, f := t + hDist c end_.coord }

/-- The state after `visit` recorded the better cost `t` for the neighbour at `c`. -/
def improved (q : Frontier) (end_ current : Node) (st : SearchState) (c : Coord) (t : Int) :
    SearchState where
  open_set := q.push st.open_set (mkNeighbor end_ c t)
  came_from := setAt st.came_from c current
  g_score := setAt st.g_score c t

/-- The invariant of the main loop, for start cell `s` and goal cell `e`.  The
cell `cur` is the one being expanded and `P` holds of its neighbours that the
`for` loop has already visited; between iterations `P` holds of every cell. -/
structure Inv (grid : Grid) (s e : Coord) (st : SearchState) (cur : Coord)
    (P : Coord → Prop) : Prop where
  g_start : st.g_score s = some 0
  tree : ∀ c v, st.g_score c = some v → c ≠ s →
    Valid grid c ∧ 1 ≤ v ∧ ∃ p, st.came_from c = some p ∧ c ∈ neighbors p.coord ∧
      ∃ u, st.g_score p.coord = some u ∧ u + 1 ≤ v
  open_ok : ∀ n ∈ st.open_set, n.coord ≠ s ∧
    ∃ v, st.g_score n.coord = some v ∧ v + hDist n.coord e ≤ n.f
  covered : ∀ c v, st.g_score c = some v →
    (∃ n ∈ st.open_set, n.coord = c ∧ n.f ≤ v + hDist c e) ∨
    (∀ m, m ∈ neighbors c → (c = cur → P m) → Valid grid m →
      ∃ u, st.g_score m = some u ∧ u ≤ v + 1)
  goal_open : st.g_score e = none ∨ ∃ n ∈ st.open_set, n.coord = e
  cur_known : ∃ gc, st.g_score cur = some gc

/-- The cells of a `W` by `H` grid. -/
def cellSet (W H : Nat) : Finset Coord :=
  Finset.Ico (0 : Int) W ×ˢ Finset.Ico (0 : Int) H

/-- Number of cells of the grid that have no `g_score` entry yet. -/
def unseen (W H : Nat) (st : SearchState) : Nat :=
  ((cellSet W H).filter (fun c => st.g_score c = none)).card

/-- Sum of the `g_score` entries of the cells of the grid. -/
def total (W H : Nat) (st : SearchState) : Nat :=
  ∑ c ∈ cellSet W H, ((st.g_score c).getD 0).toNat

/-- The state `st2` arises from `st1` by recording better costs: either nothing
changed, or a new cell got an entry, or no new cell did and the sum of the
entries went down. -/
def Progress (W H : Nat) (st1 st2 : SearchState) : Prop :=
  st2 = st1 ∨ unseen W H st2 < unseen W H st1 ∨
    (unseen W H st2 = unseen W H st1 ∧ total W H st2 < total W H st1)

/-- What the search promises of a non-empty result `p`: it starts at the cell of
`start`, ends with the node `end_`, moves by `Step`s, and no walk from the start
cell to the goal cell has fewer cells. -/
structure PathOk (grid : Grid) (start end_ : Node) (p : List Node) : Prop where
  head_start : p.head?.map Node.coord = some start.coord
  last_end : p.getLast? = some end_
  walk : IsWalk grid (p.map Node.coord)
  shortest : ∀ w : List Coord, IsWalk grid w → w.head? = some start.coord →
    w.getLast? = some end_.coord → p.length ≤ w.length

/-- A sequence of cells in which consecutive cells are 4-adjacent, whatever the
grid holds there. -/
def AdjWalk : List Coord → Prop
  | [] => True
  | [_] => True
  | a :: b :: t => b ∈ neighbors a ∧ AdjWalk (b :: t)

/-- No cell of the grid is blocked. -/
def AllFree (grid : Grid) : Prop :=
  ∀ col ∈ grid, ∀ b ∈ col, b = false

instance (grid : Grid) : Decidable (AllFree grid) :=
  inferInstanceAs (Decidable (∀ col ∈ grid, ∀ b ∈ col, b = false))

/-- The neighbour of `a` that the straight route to `b` takes: first along `x`,
then along `y`. -/
def toward (a b : Coord) : Coord :=
  if a.1 < b.1 then (a.1 + 1, a.2)
  else if b.1 < a.1 then (a.1 - 1, a.2)
  else if a.2 < b.2 then (a.1, a.2 + 1)
  else (a.1, a.2 - 1)

/-- Two outcomes are of the same kind and, when they are paths, visit the same
cells in the same order. -/
def SameRoute : Outcome → Outcome → Prop
  | .path p1, .path p2 => p1.map Node.coord = p2.map Node.coord
  | .fault, .fault => True
  | .unfinished, .unfinished => True
  | _, _ => False

/-- Two search states that agree up to the bookkeeping fields of the nodes stored
in `came_from`. -/
structure Sim (st1 st2 : SearchState) : Prop where
  open_eq : st1.open_set = st2.open_set
  g_eq : st1.g_score = st2.g_score
  came_eq : ∀ c, (st1.came_from c).map Node.coord = (st2.came_from c).map Node.coord

/-- Two optional states are both absent, or both present and similar. -/
def SimOpt : Option SearchState → Option SearchState → Prop
  | none, none => True
  | some a, some b => Sim a b
  | _, _ => False

/-! ## `scene.cpp` -/

/-- The flags of a `Box` that the selection reads and writes (`box.h`). -/
structure Box where
  m_start : Bool := false
  m_end : Bool := false
  m_isBusy : Bool := false
deriving DecidableEq, Repr

/-- The state of a `Scene`: the members of `scene.h` and the boxes among its items.
A `Box*` is the cell of the box it points to; `none` is `nullptr`.  `boxes c` is
the box at cell `c`, `none` where the scene has no box. -/
structure Scene where
  m_startAnimated : Bool
  m_currentItem : Option Coord
  m_startItem : Option Coord
  m_endItem : Option Coord
  boxes : Coord → Option Box

/-- The button of a mouse press. -/
inductive MouseButton where
  | left
  | right
  | other
deriving DecidableEq, Repr

/-- The two `QMessageBox::warning` dialogs of `Scene::mousePressEvent`. -/
inductive Warning where
  | cellNotAvailable
  | startEqualsEnd
deriving DecidableEq, Repr

/-- `item->setStart(v)` on the box at `c`. -/
def setStart (boxes : Coord → Option Box) (c : Coord) (v : Bool) : Coord → Option Box :=
  fun k => if k = c then (boxes k).map (fun b => { b with m_start := v }) else boxes k

/-- `item->setEnd(v)` on the box at `c`. -/
def setEnd (boxes : Coord → Option Box) (c : Coord) (v : Bool) : Coord → Option Box :=
  fun k => if k = c then (boxes k).map (fun b => { b with m_end := v }) else boxes k

/-- `Scene::clearScene(all)`: unmark and forget the start and the end item; with
`all`, `clear()` also removes every item. -/
def clearScene (all : Bool) (sc : Scene) : Scene :=
  let sc1 : Scene := match sc.m_startItem with
    | some a => { sc with boxes := setStart sc.boxes a false, m_startItem := none }
    | none => sc
  let sc2 : Scene := match sc1.m_endItem with
    | some b => { sc1 with boxes := setEnd sc1.boxes b false, m_endItem := none }
    | none => sc1
  if all then { sc2 with boxes := fun _ => none } else sc2

/-- `Scene::startAnimated(start)`: `clearScene(false)`, then the mode flag is set. -/
def startAnimated (start : Bool) (sc : Scene) : Scene :=
  { clearScene false sc with m_startAnimated := start }

/-- `Scene::mousePressEvent` for a press of `button` over the cell `pos`; the item
under the pointer is the box at `pos`, if there is one.  The result is the new
state and the warning shown, if any. -/
def mousePressEvent (button : MouseButton) (pos : Coord) (sc : Scene) :
    Scene × Option Warning :=
  if button = .right ∧ sc.m_startAnimated = true then (startAnimated true sc, none)
  else if button ≠ .left ∨ (sc.m_startAnimated = true ∧ sc.m_startItem ≠ none) then (sc, none)
  else
    match sc.boxes pos with
    | none => (sc, none)
    | some item =>
      if item.m_isBusy = true then (sc, some .cellNotAvailable)
      else
        let sc1 : Scene :=
          match sc.m_startItem, sc.m_endItem with
          | some a, some b =>
            { sc with boxes := setEnd (setStart sc.boxes a false) b false
                      m_startItem := none, m_endItem := none }
          | _, _ => sc
        match sc1.m_startItem with
        | none =>
          ({ sc1 with m_startItem := some pos, boxes := setStart sc1.boxes pos true }, none)
        | some a =>
          if a = pos then ({ sc1 with m_endItem := none }, some .startEqualsEnd)
          else ({ sc1 with m_endItem := some pos, boxes := setEnd sc1.boxes pos true }, none)

/-- A scene of the three cells `(0,0)`, `(1,0)`, `(2,0)` in manual mode: `(0,0)` is
the chosen start, `(1,0)` the chosen end, `(2,0)` is busy. -/
def sceneBothChosen : Scene where
  m_startAnimated := false
  m_currentItem := none
  m_startItem := some (0, 0)
  m_endItem := some (1, 0)
  boxes := fun c =>
    if c = (0, 0) then some { m_start := true }
    else if c = (1, 0) then some { m_end := true }
    else if c = (2, 0) then some { m_isBusy := true }
    else none

/-- A scene of the two cells `(0,0)`, `(1,0)` in manual mode: `(0,0)` is the chosen
start, no end is chosen, `(1,0)` is busy. -/
def sceneStartChosen : Scene where
  m_startAnimated := false
  m_currentItem := none
  m_startItem := some (0, 0)
  m_endItem := none
  boxes := fun c =>
    if c = (0, 0) then some { m_start := true }
    else if c = (1, 0) then some { m_isBusy := true }
    else none

/-! ## The states the main loop passes through -/

/-- One full iteration of the main loop from the state `st` at its head: `none`
when the loop is left (the frontier is empty, or the node popped is at the goal) or
when a read goes outside the grid. -/
def loopStep (q : Frontier) (grid : Grid) (end_ : Node) (st : SearchState) :
    Option SearchState :=
  match q.pop st.open_set with
  | none => none
  | some (current, rest) =>
    if current.x = end_.x ∧ current.y = end_.y then none
    else expand q grid end_ current { st with open_set := rest }

/-- The state at the head of the main loop after `k` full iterations, if the loop
gets that far. -/
def loopState (q : Frontier) (grid : Grid) (start end_ : Node) : Nat → Option SearchState
  | 0 => some (initState q start)
  | k + 1 =>
    match loopState q grid start end_ k with
    | none => none
    | some st => loopStep q grid end_ st

/-- Every recorded cost is the number of steps of a walk from the cell `s`. -/
def CostsAreWalks (grid : Grid) (s : Coord) (st : SearchState) : Prop :=
  ∀ c v, st.g_score c = some v →
    ∃ w, IsWalk grid w ∧ w.head? = some s ∧ w.getLast? = some c ∧ (w.length : Int) = v + 1

/-- Every cost recorded in `st1` is still recorded in `st2`, unchanged or smaller. -/
def CostsFall (st1 st2 : SearchState) : Prop :=
  ∀ c v, st1.g_score c = some v → ∃ v2, st2.g_score c = some v2 ∧ (v2 = v ∨ v2 < v)

/-- The state at the head of the second iteration for the request from `(0,0)` to
`(2,2)` on a grid whose cells `(0,1)` and `(1,0)` are free: both were reached from
the start at cost 1. -/
def stateAfterStart : SearchState :=
  improved fifoFrontier { x := 2, y := 2 } { x := 0, y := 0 }
    (improved fifoFrontier { x := 2, y := 2 } { x := 0, y := 0 }
      { initState fifoFrontier { x := 0, y := 0 } with open_set := [] } (0, 1) 1)
    (1, 0) 1

/-- `Scene::mouseMoveEvent` for a move of the pointer over the cell `pos`.  The
result is the new state and whether the signal `animated()` was emitted. -/
def mouseMoveEvent (pos : Coord) (sc : Scene) : Scene × Bool :=
  if sc.m_startAnimated = true ∧ sc.m_startItem ≠ none then
    match sc.boxes pos with
    | none => (sc, false)
    | some _ =>
      if some pos ≠ sc.m_currentItem then
        ({ sc with m_currentItem := some pos, m_endItem := some pos }, true)
      else (sc, false)
  else (sc, false)

/-- A scene of the three cells `(0,0)`, `(1,0)`, `(2,0)` as generated, in manual
mode and with nothing selected; `(2,0)` is busy. -/
def sceneEmpty : Scene where
  m_startAnimated := false
  m_currentItem := none
  m_startItem := none
  m_endItem := none
  boxes := fun c =>
    if c = (0, 0) then some { }
    else if c = (1, 0) then some { }
    else if c = (2, 0) then some { m_isBusy := true }
    else none

/-- The selection is sound: a chosen start is a box that is not busy, and an end is
chosen only after a start, and is a box that is not busy and is not the start. -/
def SelectionOk (sc : Scene) : Prop :=
  (∀ a, sc.m_startItem = some a → ∃ box, sc.boxes a = some box ∧ box.m_isBusy = false) ∧
  (∀ b, sc.m_endItem = some b →
    (∃ box, sc.boxes b = some box ∧ box.m_isBusy = false) ∧
      ∃ a, sc.m_startItem = some a ∧ a ≠ b)

/-- The inputs of the selection other than pointer moves: a mouse press,
`startAnimated(live)` on a change of mode, and `clearScene(false)`. -/
inductive ClickEvent where
  | press (button : MouseButton) (pos : Coord)
  | setMode (live : Bool)
  | reset
deriving DecidableEq, Repr

/-- The scene after one input that is not a pointer move. -/
def applyClick (sc : Scene) : ClickEvent → Scene
  | .press button pos => (mousePressEvent button pos sc).1
  | .setMode live => startAnimated live sc
  | .reset => clearScene false sc

/-! ## `mainwindow.cpp` -/

/-- What the window shows of a path: the line items of `m_currentPath`, each given
by the two cells it joins, and the number written into the label `lbResult`. -/
structure Display where
  m_currentPath : List (Coord × Coord)
  lbResult : Nat
deriving DecidableEq, Repr

/-- `MainWindow::deletePath`: every line item is removed. -/
def deletePath (d : Display) : Display :=
  { d with m_currentPath := [] }

/-- `MainWindow::paintPath(path)`: the old lines are deleted, the label gets
`path.size()`, and one line is added for every `i` from 1 below `path.size()`,
from `path[i-1]` to `path[i]`. -/
def paintPath (path : List Node) (d : Display) : Display :=
  let d1 := deletePath d
  { m_currentPath :=
      d1.m_currentPath ++ (List.zip path path.tail).map (fun ab => (ab.1.coord, ab.2.coord))
    lbResult := path.length }

/-- `MainWindow::finish`: the slot run when the watched search has finished;
`isCanceled` is `m_watcher.isCanceled()` and `result` is `m_watcher.result()`. -/
def finish (isCanceled : Bool) (result : List Node) (d : Display) : Display :=
  if isCanceled = true then d
  else if result.isEmpty = true then d
  else paintPath result d

/-- A display that shows a path of two nodes. -/
def displayTwoNodes : Display where
  m_currentPath := [((0, 0), (0, 1))]
  lbResult := 2

end FindPath

/-! # Properties -/

namespace FindPath

/-! ## Reading the grid -/

theorem gridAt_rect {W H : Nat} {grid : Grid} (hr : Rect W H grid) {x y : Int}
    (hx0 : 0 ≤ x) (hx : x < W) (hy0 : 0 ≤ y) (hy : y < H) :
    ∃ b, gridAt grid x y = some b := by
  have hx1 : x.toNat < grid.length := by rw [hr.1]; omega
  have hmem : grid[x.toNat] ∈ grid := List.getElem_mem hx1
  have hy1 : y.toNat < (grid[x.toNat]).length := by rw [hr.2 _ hmem]; omega
  refine ⟨(grid[x.toNat])[y.toNat], ?_⟩
  simp [gridAt, List.getElem?_eq_getElem hx1, List.getElem?_eq_getElem hy1]

theorem gridAt_some_inRange {W H : Nat} {grid : Grid} (hr : Rect W H grid) {x y : Int}
    {b : Bool} (h : gridAt grid x y = some b) : x.toNat < W ∧ y.toNat < H := by
  unfold gridAt at h
  split at h
  · exact absurd h (by simp)
  · rename_i col hcol
    obtain ⟨hx1, hxe⟩ := List.getElem?_eq_some.mp hcol
    obtain ⟨hy1, _⟩ := List.getElem?_eq_some.mp h
    have hmem : col ∈ grid := hxe ▸ List.getElem_mem hx1
    rw [hr.2 _ hmem] at hy1
    rw [hr.1] at hx1
    exact ⟨hx1, hy1⟩

theorem valid_inRange {W H : Nat} {grid : Grid} (hr : Rect W H grid) {c : Coord}
    (hv : Valid grid c) : 0 ≤ c.1 ∧ c.1 < W ∧ 0 ≤ c.2 ∧ c.2 < H := by
  obtain ⟨h1, h2, h3⟩ := hv
  have := gridAt_some_inRange hr h3
  omega

theorem isValid_rect {W H : Nat} {grid : Grid} (hr : Rect W H grid) (x y : Int) :
    isValid x y W H grid = some (decide (Valid grid (x, y))) := by
  unfold isValid
  split
  · rename_i hin
    obtain ⟨b, hb⟩ := gridAt_rect hr hin.1 hin.2.1 hin.2.2.1 hin.2.2.2
    rw [hb]
    cases b <;> simp [Valid, hb, hin.1, hin.2.2.1]
  · rename_i hout
    have : ¬ Valid grid (x, y) := fun hv => hout (by have := valid_inRange hr hv; simpa using this)
    simp [this]

/-! ## The heuristic -/

theorem manhattanDistance_eq (a b : Node) : manhattanDistance a b = hDist a.coord b.coord := rfl

theorem hDist_nonneg (c e : Coord) : 0 ≤ hDist c e := by
  unfold hDist; positivity

theorem hDist_self (c : Coord) : hDist c c = 0 := by
  simp [hDist]

theorem mem_neighbors {c m : Coord} :
    m ∈ neighbors c ↔
      m = (c.1, c.2 + 1) ∨ m = (c.1 + 1, c.2) ∨ m = (c.1, c.2 - 1) ∨ m = (c.1 - 1, c.2) := by
  simp [neighbors, directions, sub_eq_add_neg]

theorem hDist_neighbor {c m : Coord} (h : m ∈ neighbors c) : hDist c m = 1 := by
  rcases mem_neighbors.mp h with h | h | h | h <;> subst h <;> simp [hDist]

theorem hDist_triangle (a b c : Coord) : hDist a c ≤ hDist a b + hDist b c := by
  unfold hDist
  have h1 := abs_sub_le a.1 b.1 c.1
  have h2 := abs_sub_le a.2 b.2 c.2
  omega

theorem hDist_step {c m : Coord} (e : Coord) (h : m ∈ neighbors c) :
    hDist c e ≤ 1 + hDist m e := by
  have := hDist_triangle c m e
  rw [hDist_neighbor h] at this
  exact this

theorem neighbor_ne {c m : Coord} (h : m ∈ neighbors c) : m ≠ c := by
  intro hmc
  have := hDist_neighbor h
  rw [hmc, hDist_self] at this
  omega

theorem dir_neighbor (cur : Node) {d : Int × Int} (hd : d ∈ directions) :
    (cur.x + d.1, cur.y + d.2) ∈ neighbors cur.coord :=
  List.mem_map.mpr ⟨d, hd, rfl⟩

/-! ## One relaxation -/

theorem visit_eq {W H : Nat} {grid : Grid} (hr : Rect W H grid) (hW : 0 < W)
    (q : Frontier) (end_ cur : Node) (st : SearchState) {d : Int × Int}
    (hd : d ∈ directions) {gc : Int} (hg : st.g_score cur.coord = some gc) :
    visit q grid end_ cur st d =
      some (if Valid grid (cur.x + d.1, cur.y + d.2) ∧
              (∀ old, st.g_score (cur.x + d.1, cur.y + d.2) = some old → gc + 1 < old)
            then improved q end_ cur st (cur.x + d.1, cur.y + d.2) (gc + 1) else st) := by
  obtain ⟨col0, rest, hgrid⟩ : ∃ col0 rest, grid = col0 :: rest := by
    cases grid with
    | nil => exact absurd hr.1.symm (by simpa using Nat.ne_of_gt hW)
    | cons a l => exact ⟨a, l, rfl⟩
  have hH : col0.length = H := hr.2 col0 (by simp [hgrid])
  have hmd : manhattanDistance cur { x := cur.x + d.1, y := cur.y + d.2 } = 1 := by
    rw [manhattanDistance_eq]; exact hDist_neighbor (dir_neighbor cur hd)
  have hv := isValid_rect hr (cur.x + d.1) (cur.y + d.2)
  have hhead : grid.head? = some col0 := by rw [hgrid]; rfl
  unfold visit
  simp only [hhead]
  rw [hH, hr.1, hv]
  by_cases hval : Valid grid (cur.x + d.1, cur.y + d.2)
  · simp only [hval, decide_True, hg, Option.getD_some, hmd, true_and]
    cases hnb : st.g_score (cur.x + d.1, cur.y + d.2) with
    | none => simp [improved, mkNeighbor, manhattanDistance_eq, hDist, Node.coord]
    | some old =>
      by_cases hlt : gc + 1 < old
      · simp [hlt, improved, mkNeighbor, manhattanDistance_eq, hDist, Node.coord]
      · simp [hlt]
  · simp [hval]

/-! ## The loop invariant -/

theorem Inv.g_nonneg {grid : Grid} {s e : Coord} {st : SearchState} {cur : Coord}
    {P : Coord → Prop} (h : Inv grid s e st cur P) {c : Coord} {v : Int}
    (hc : st.g_score c = some v) : 0 ≤ v := by
  by_cases hs : c = s
  · subst hs
    rw [h.g_start] at hc
    cases hc; exact le_refl _
  · have := (h.tree c v hc hs).2.1
    omega

theorem Inv.mono {grid : Grid} {s e : Coord} {st : SearchState} {cur : Coord}
    {P Q : Coord → Prop} (h : Inv grid s e st cur P)
    (hPQ : ∀ m, m ∈ neighbors cur → Q m → P m) :
    Inv grid s e st cur Q where
  g_start := h.g_start
  tree := h.tree
  open_ok := h.open_ok
  covered := fun c v hc => by
    rcases h.covered c v hc with hl | hr
    · exact Or.inl hl
    · exact Or.inr (fun m hm hq hv => hr m hm (fun hcc => hPQ m (hcc ▸ hm) (hq hcc)) hv)
  goal_open := h.goal_open
  cur_known := h.cur_known

theorem setAt_same {V : Type} (m : Coord → Option V) (k : Coord) (v : V) :
    setAt m k v k = some v := by
  simp [setAt]

theorem setAt_other {V : Type} (m : Coord → Option V) {k c : Coord} (v : V) (h : c ≠ k) :
    setAt m k v c = m c := by
  simp [setAt, h]

/-- A neighbour that is not improved leaves the invariant in place. -/
theorem Inv.skip {grid : Grid} {s e : Coord} {st : SearchState} {cur : Coord}
    {P : Coord → Prop} (h : Inv grid s e st cur P) {nb : Coord} {gc : Int}
    (hgc : st.g_score cur = some gc)
    (hno : ¬ (Valid grid nb ∧ ∀ old, st.g_score nb = some old → gc + 1 < old)) :
    Inv grid s e st cur (fun m => P m ∨ m = nb) where
  g_start := h.g_start
  tree := h.tree
  open_ok := h.open_ok
  covered := fun c v hc => by
    rcases h.covered c v hc with hl | hr
    · exact Or.inl hl
    · refine Or.inr (fun m hm hq hv => ?_)
      by_cases hcc : c = cur
      · rcases hq hcc with hp | hmn
        · exact hr m hm (fun _ => hp) hv
        · subst hmn
          rw [hcc, hgc] at hc
          cases hc
          by_contra hcon
          apply hno
          refine ⟨hv, fun old hold => ?_⟩
          by_contra hlt
          exact hcon ⟨old, hold, by omega⟩
      · exact hr m hm (fun hcc2 => absurd hcc2 hcc) hv
  goal_open := h.goal_open
  cur_known := h.cur_known

/-- An improved neighbour keeps the invariant. -/
theorem Inv.improve {grid : Grid} {s e : Coord} {st : SearchState} {q : Frontier}
    (hq : q.Lawful) {end_ cur : Node} (he : end_.coord = e)
    {P : Coord → Prop} (h : Inv grid s e st cur.coord P) {nb : Coord} {gc : Int}
    (hgc : st.g_score cur.coord = some gc) (hnb : nb ∈ neighbors cur.coord)
    (hval : Valid grid nb) (hlt : ∀ old, st.g_score nb = some old → gc + 1 < old) :
    Inv grid s e (improved q end_ cur st nb (gc + 1)) cur.coord (fun m => P m ∨ m = nb) := by
  subst he
  have hgc0 : 0 ≤ gc := h.g_nonneg hgc
  have hnbs : nb ≠ s := by
    intro hs
    have := hlt 0 (hs ▸ h.g_start)
    omega
  have hnbc : nb ≠ cur.coord := neighbor_ne hnb
  have hmemo : ∀ n, n ∈ (improved q end_ cur st nb (gc + 1)).open_set ↔
      n = mkNeighbor end_ nb (gc + 1) ∨ n ∈ st.open_set := by
    intro n
    simp only [improved]
    rw [(hq.push_perm _ _).mem_iff, List.mem_cons]
  have hdown : ∀ c v, st.g_score c = some v →
      ∃ u, (improved q end_ cur st nb (gc + 1)).g_score c = some u ∧ u ≤ v := by
    intro c v hc
    by_cases hcn : c = nb
    · subst hcn
      exact ⟨gc + 1, setAt_same _ _ _, le_of_lt (hlt v hc)⟩
    · exact ⟨v, by simp only [improved]; rw [setAt_other _ _ hcn]; exact hc, le_refl _⟩
  refine ⟨?_, ?_, ?_, ?_, ?_, ?_⟩
  · simp only [improved]
    rw [setAt_other _ _ (Ne.symm hnbs)]
    exact h.g_start
  · intro c v hc hcs
    by_cases hcn : c = nb
    · subst hcn
      simp only [improved, setAt_same] at hc
      cases hc
      refine ⟨hval, by omega, cur, by simp [improved, setAt_same], hnb, gc, ?_, le_refl _⟩
      simp only [improved]
      rw [setAt_other _ _ (Ne.symm hnbc)]
      exact hgc
    · simp only [improved] at hc
      rw [setAt_other _ _ hcn] at hc
      obtain ⟨hv, h1, p, hp, hadj, u, hu, hle⟩ := h.tree c v hc hcs
      obtain ⟨u2, hu2, hle2⟩ := hdown _ _ hu
      refine ⟨hv, h1, p, ?_, hadj, u2, hu2, by omega⟩
      simp only [improved]
      rw [setAt_other _ _ hcn]
      exact hp
  · intro n hn
    rcases (hmemo n).mp hn with hnew | hold
    · subst hnew
      refine ⟨hnbs, gc + 1, ?_, ?_⟩
      · simp [improved, mkNeighbor, Node.coord, setAt_same]
      · simp [mkNeighbor, Node.coord]
    · obtain ⟨hns, v, hv, hle⟩ := h.open_ok n hold
      obtain ⟨u, hu, hle2⟩ := hdown _ _ hv
      exact ⟨hns, u, hu, by omega⟩
  · intro c v hc
    by_cases hcn : c = nb
    · subst hcn
      simp only [improved, setAt_same] at hc
      cases hc
      refine Or.inl ⟨mkNeighbor end_ c (gc + 1), (hmemo _).mpr (Or.inl rfl), ?_, ?_⟩
      · simp [mkNeighbor, Node.coord]
      · simp [mkNeighbor]
    · simp only [improved] at hc
      rw [setAt_other _ _ hcn] at hc
      rcases h.covered c v hc with ⟨n, hn, hnc, hnf⟩ | hr
      · exact Or.inl ⟨n, (hmemo n).mpr (Or.inr hn), hnc, hnf⟩
      · refine Or.inr (fun m hm hq2 hv => ?_)
        by_cases hmn : m = nb
        · by_cases hcc : c = cur.coord
          · subst hmn
            rw [hcc, hgc] at hc
            cases hc
            exact ⟨gc + 1, by simp [improved, setAt_same], le_refl _⟩
          · obtain ⟨u, hu, hle⟩ := hr m hm (fun hcc2 => absurd hcc2 hcc) hv
            obtain ⟨u2, hu2, hle2⟩ := hdown _ _ hu
            exact ⟨u2, hu2, by omega⟩
        · have hpm : c = cur.coord → P m := fun hcc => by
            rcases hq2 hcc with hp | he2
            · exact hp
            · exact absurd he2 hmn
          obtain ⟨u, hu, hle⟩ := hr m hm hpm hv
          obtain ⟨u2, hu2, hle2⟩ := hdown _ _ hu
          exact ⟨u2, hu2, by omega⟩
  · rcases h.goal_open with hnone | ⟨n, hn, hne⟩
    · by_cases hen : end_.coord = nb
      · refine Or.inr ⟨mkNeighbor end_ nb (gc + 1), (hmemo _).mpr (Or.inl rfl), ?_⟩
        rw [hen]
        simp [mkNeighbor, Node.coord]
      · left
        simp only [improved]
        rw [setAt_other _ _ hen]
        exact hnone
    · exact Or.inr ⟨n, (hmemo n).mpr (Or.inr hn), hne⟩
  · obtain ⟨u, hu, _⟩ := hdown _ _ hgc
    exact ⟨u, hu⟩

/-! ## Progress of the search -/

theorem Progress.refl (W H : Nat) (st : SearchState) : Progress W H st st := Or.inl rfl

theorem Progress.trans {W H : Nat} {a b c : SearchState} (h1 : Progress W H a b)
    (h2 : Progress W H b c) : Progress W H a c := by
  rcases h1 with h1 | h1 | h1
  · subst h1; exact h2
  · rcases h2 with h2 | h2 | h2
    · subst h2; exact Or.inr (Or.inl h1)
    · exact Or.inr (Or.inl (by omega))
    · exact Or.inr (Or.inl (by omega))
  · rcases h2 with h2 | h2 | h2
    · subst h2; exact Or.inr (Or.inr h1)
    · exact Or.inr (Or.inl (by omega))
    · exact Or.inr (Or.inr ⟨by omega, by omega⟩)

theorem mem_cellSet {W H : Nat} {c : Coord} :
    c ∈ cellSet W H ↔ 0 ≤ c.1 ∧ c.1 < W ∧ 0 ≤ c.2 ∧ c.2 < H := by
  simp [cellSet, Finset.mem_product, and_assoc]

theorem improved_progress {W H : Nat} {grid : Grid} (hr : Rect W H grid) (q : Frontier)
    (end_ cur : Node) (st : SearchState) {nb : Coord} {t : Int} (ht : 0 ≤ t)
    (hval : Valid grid nb) (hlt : ∀ old, st.g_score nb = some old → t < old) :
    Progress W H st (improved q end_ cur st nb t) := by
  have hmem : nb ∈ cellSet W H := mem_cellSet.mpr (valid_inRange hr hval)
  right
  cases hnb : st.g_score nb with
  | none =>
    left
    apply Finset.card_lt_card
    rw [Finset.ssubset_iff_of_subset]
    · refine ⟨nb, Finset.mem_filter.mpr ⟨hmem, hnb⟩, ?_⟩
      simp [improved, setAt_same]
    · intro c hc
      rw [Finset.mem_filter] at hc ⊢
      refine ⟨hc.1, ?_⟩
      by_cases hcn : c = nb
      · rw [hcn]; exact hnb
      · have := hc.2
        simp only [improved] at this
        rwa [setAt_other _ _ hcn] at this
  | some old =>
    right
    constructor
    · unfold unseen
      congr 1
      apply Finset.filter_congr
      intro c _
      by_cases hcn : c = nb
      · subst hcn; simp [improved, setAt_same, hnb]
      · simp only [improved]; rw [setAt_other _ _ hcn]
    · unfold total
      apply Finset.sum_lt_sum
      · intro c _
        by_cases hcn : c = nb
        · subst hcn
          have := hlt old hnb
          simp only [improved, setAt_same, hnb, Option.getD_some]
          omega
        · simp only [improved]; rw [setAt_other _ _ hcn]
      · refine ⟨nb, hmem, ?_⟩
        have := hlt old hnb
        simp only [improved, setAt_same, hnb, Option.getD_some]
        omega

/-- The `for` loop over any part of `directions` does not read outside the grid,
keeps the invariant and marks the visited neighbours. -/
theorem fold_visit {W H : Nat} {grid : Grid} (hr : Rect W H grid) (hW : 0 < W)
    {q : Frontier} (hq : q.Lawful) {s : Coord} (end_ cur : Node) :
    ∀ (ds : List (Int × Int)), (∀ d ∈ ds, d ∈ directions) →
    ∀ (st : SearchState) (P : Coord → Prop), Inv grid s end_.coord st cur.coord P →
    ∃ st2, ds.foldlM (visit q grid end_ cur) st = some st2 ∧
      Inv grid s end_.coord st2 cur.coord
        (fun m => P m ∨ m ∈ ds.map (fun d => (cur.x + d.1, cur.y + d.2))) ∧
      Progress W H st st2 := by
  intro ds
  induction ds with
  | nil =>
    intro _ st P h
    exact ⟨st, rfl, h.mono (fun m _ hm => by simpa using hm), Progress.refl _ _ _⟩
  | cons d ds ih =>
    intro hds st P h
    obtain ⟨gc, hgc⟩ := h.cur_known
    have hd : d ∈ directions := hds d (List.mem_cons_self _ _)
    have hveq := visit_eq hr hW q end_ cur st hd hgc
    have hstep : ∃ st1, visit q grid end_ cur st d = some st1 ∧
        Inv grid s end_.coord st1 cur.coord (fun m => P m ∨ m = (cur.x + d.1, cur.y + d.2)) ∧
        Progress W H st st1 := by
      by_cases hc : Valid grid (cur.x + d.1, cur.y + d.2) ∧
          (∀ old, st.g_score (cur.x + d.1, cur.y + d.2) = some old → gc + 1 < old)
      · rw [if_pos hc] at hveq
        refine ⟨_, hveq, h.improve hq rfl hgc (dir_neighbor cur hd) hc.1 hc.2, ?_⟩
        exact improved_progress hr q end_ cur st (by have := h.g_nonneg hgc; omega) hc.1 hc.2
      · rw [if_neg hc] at hveq
        exact ⟨_, hveq, h.skip hgc hc, Progress.refl _ _ _⟩
    obtain ⟨st1, hv1, hinv1, hp1⟩ := hstep
    obtain ⟨st2, hf2, hinv2, hp2⟩ :=
      ih (fun d hd => hds d (List.mem_cons_of_mem _ hd)) st1 _ hinv1
    refine ⟨st2, ?_, hinv2.mono ?_, hp1.trans hp2⟩
    · simp [List.foldlM, hv1, hf2]
    · intro m _ hm
      rcases hm with hm | hm
      · exact Or.inl (Or.inl hm)
      · rcases List.mem_cons.mp hm with hm | hm
        · exact Or.inl (Or.inr hm)
        · exact Or.inr hm

/-! ## One iteration of the main loop -/

theorem pop_mem {q : Frontier} (hq : q.Lawful) {l rest : List Node} {cur : Node}
    (hpop : q.pop l = some (cur, rest)) (n : Node) : n ∈ l ↔ n = cur ∨ n ∈ rest := by
  rw [(hq.pop_perm _ _ _ hpop).mem_iff, List.mem_cons]

theorem pop_length {q : Frontier} (hq : q.Lawful) {l rest : List Node} {cur : Node}
    (hpop : q.pop l = some (cur, rest)) : rest.length + 1 = l.length := by
  rw [(hq.pop_perm _ _ _ hpop).length_eq, List.length_cons]

/-- Taking the popped node out of the frontier starts its expansion. -/
theorem Inv.pop {grid : Grid} {s e : Coord} {st : SearchState} {c0 : Coord}
    {q : Frontier} (hq : q.Lawful) (h : Inv grid s e st c0 (fun _ => True))
    {cur : Node} {rest : List Node} (hpop : q.pop st.open_set = some (cur, rest))
    (hne : cur.coord ≠ e) :
    Inv grid s e { st with open_set := rest } cur.coord (fun _ => False) where
  g_start := h.g_start
  tree := h.tree
  open_ok := fun n hn => h.open_ok n ((pop_mem hq hpop n).mpr (Or.inr hn))
  covered := fun c v hc => by
    by_cases hcc : c = cur.coord
    · exact Or.inr (fun m _ hP _ => (hP hcc).elim)
    · rcases h.covered c v hc with ⟨n, hn, hnc, hnf⟩ | hr
      · rcases (pop_mem hq hpop n).mp hn with hn1 | hn1
        · exact absurd (hn1 ▸ hnc).symm hcc
        · exact Or.inl ⟨n, hn1, hnc, hnf⟩
      · exact Or.inr (fun m hm _ hv => hr m hm (fun _ => trivial) hv)
  goal_open := by
    rcases h.goal_open with hnone | ⟨n, hn, hnc⟩
    · exact Or.inl hnone
    · rcases (pop_mem hq hpop n).mp hn with hn1 | hn1
      · exact absurd (hn1 ▸ hnc) hne
      · exact Or.inr ⟨n, hn1, hnc⟩
  cur_known := by
    obtain ⟨_, v, hv, _⟩ := h.open_ok cur ((pop_mem hq hpop cur).mpr (Or.inl rfl))
    exact ⟨v, hv⟩

/-- The expansion of a node whose expansion was started: no read outside the grid,
the invariant holds again, and the search made progress. -/
theorem expand_spec {W H : Nat} {grid : Grid} (hr : Rect W H grid) (hW : 0 < W)
    {q : Frontier} (hq : q.Lawful) {s : Coord} (end_ cur : Node) (st : SearchState)
    (h : Inv grid s end_.coord st cur.coord (fun _ => False)) :
    ∃ st2, expand q grid end_ cur st = some st2 ∧
      Inv grid s end_.coord st2 cur.coord (fun _ => True) ∧ Progress W H st st2 := by
  obtain ⟨st2, hf, hinv, hp⟩ :=
    fold_visit hr hW hq end_ cur directions (fun _ hd => hd) st _ h
  refine ⟨st2, hf, hinv.mono (fun m hm _ => Or.inr ?_), hp⟩
  exact hm

/-- The state in which the expansion of `start` begins, after the first pop. -/
theorem Inv.init (grid : Grid) {start : Node} {e : Coord} (hne : start.coord ≠ e) :
    Inv grid start.coord e
      { open_set := []
        came_from := setAt (fun _ => none) start.coord start
        g_score := setAt (fun _ => none) start.coord 0 }
      start.coord (fun _ => False) where
  g_start := by simp [setAt]
  tree := fun c v hc hcs => by
    simp only [] at hc
    rw [setAt_other _ _ hcs] at hc
    exact absurd hc (by simp)
  open_ok := fun n hn => absurd hn (List.not_mem_nil n)
  covered := fun c v hc => by
    by_cases hcs : c = start.coord
    · exact Or.inr (fun m _ hP _ => (hP hcs).elim)
    · simp only [] at hc
      rw [setAt_other _ _ hcs] at hc
      exact absurd hc (by simp)
  goal_open := Or.inl (by simp [setAt, Ne.symm hne])
  cur_known := ⟨0, by simp [setAt]⟩

theorem pop_init {q : Frontier} (hq : q.Lawful) (start : Node) :
    q.pop (q.push [] start) = some (start, []) := by
  have hperm := hq.push_perm [] start
  have hl : q.push [] start = [start] := List.perm_singleton.mp hperm
  obtain ⟨n, r, hpop⟩ := hq.pop_some (q.push [] start) (by rw [hl]; simp)
  have hp2 := hq.pop_perm _ _ _ hpop
  rw [hl] at hp2
  have hlen := hp2.length_eq
  have hr : r = [] := by
    cases r with
    | nil => rfl
    | cons a t => simp at hlen
  subst hr
  have : [start] = [n] := List.perm_singleton.mp hp2.symm |>.symm
  rw [hpop]
  simp only [List.cons.injEq, and_true] at this
  rw [this]

/-! ## Walks -/

theorem isWalk_concat (grid : Grid) (b : Coord) :
    ∀ l : List Coord, IsWalk grid (l ++ [b]) ↔
      IsWalk grid l ∧ ∀ a, l.getLast? = some a → Step grid a b
  | [] => by simp [IsWalk]
  | [a] => by simp [IsWalk]
  | a :: c :: t => by
    have ih := isWalk_concat grid b (c :: t)
    simp only [List.cons_append] at ih ⊢
    simp only [IsWalk, List.getLast?_cons_cons]
    rw [ih]
    exact and_assoc.symm

/-- A walk from the start cell to `c` either bounds the cost recorded for `c`, or
the frontier still holds a node whose `f` the walk bounds. -/
theorem walk_bound {grid : Grid} {s e : Coord} {st : SearchState} {c0 : Coord}
    (h : Inv grid s e st c0 (fun _ => True)) :
    ∀ (w : List Coord) (c : Coord), IsWalk grid w → w.head? = some s →
      w.getLast? = some c →
      (∃ v, st.g_score c = some v ∧ v + 1 ≤ w.length) ∨
      (∃ n ∈ st.open_set, n.f + 1 ≤ w.length + hDist c e) := by
  intro w
  induction w using List.reverseRecOn with
  | nil => intro c _ hh _; simp at hh
  | append_singleton l a ih =>
    intro c hw hh hl
    have hca : a = c := by simpa using hl
    subst hca
    cases hlast : l.getLast? with
    | none =>
      have hnil : l = [] := List.getLast?_eq_none_iff.mp hlast
      subst hnil
      have has : a = s := by simpa using hh
      subst has
      exact Or.inl ⟨0, h.g_start, by simp⟩
    | some b =>
      have hne : l ≠ [] := by
        intro hnil; subst hnil; simp at hlast
      have hh2 : l.head? = some s := by
        cases l with
        | nil => exact absurd rfl hne
        | cons x t => simpa using hh
      obtain ⟨hwl, hstep⟩ := (isWalk_concat grid a l).mp hw
      have hba : Step grid b a := hstep b hlast
      have hcons := hDist_step e hba.1
      rcases ih b hwl hh2 hlast with ⟨v, hv, hle⟩ | ⟨n, hn, hle⟩
      · rcases h.covered b v hv with ⟨n, hn, _, hnf⟩ | hset
        · refine Or.inr ⟨n, hn, ?_⟩
          simp only [List.length_append, List.length_singleton]
          push_cast
          omega
        · obtain ⟨u, hu, hule⟩ := hset a hba.1 (fun _ => trivial) hba.2
          refine Or.inl ⟨u, hu, ?_⟩
          simp only [List.length_append, List.length_singleton]
          push_cast
          omega
      · refine Or.inr ⟨n, hn, ?_⟩
        simp only [List.length_append, List.length_singleton]
        push_cast
        omega

/-! ## Reconstruction of the path -/

/-- From a node with a recorded cost `v`, the reconstruction loop reaches the start
cell within `v` further nodes, along `came_from` links that are steps of a walk. -/
theorem reconstruct_spec {grid : Grid} {start : Node} {e : Coord} {st : SearchState}
    {c0 : Coord} {P : Coord → Prop} (h : Inv grid start.coord e st c0 P) :
    ∀ (k : Nat) (back : Node) (v : Int), st.g_score back.coord = some v → v ≤ k →
      ∃ tl : List Node,
        (∀ rfuel pre, k < rfuel →
          reconstruct start st.came_from rfuel pre back = some (pre ++ back :: tl).reverse) ∧
        (tl.length : Int) ≤ v ∧
        ((back :: tl).reverse.head?.map Node.coord = some start.coord) ∧
        IsWalk grid ((back :: tl).reverse.map Node.coord) := by
  intro k
  induction k with
  | zero =>
    intro back v hv hk
    have hv0 := h.g_nonneg hv
    have hs : back.coord = start.coord := by
      by_contra hne
      have := (h.tree _ _ hv hne).2.1
      omega
    have hx : back.x = start.x := congrArg Prod.fst hs
    have hy : back.y = start.y := congrArg Prod.snd hs
    refine ⟨[], ?_, by simpa using hv0, by simp [hs], by simp [IsWalk]⟩
    intro rfuel pre hr
    obtain ⟨n, rfl⟩ : ∃ n, rfuel = n + 1 := ⟨rfuel - 1, by omega⟩
    simp [reconstruct, hx, hy]
  | succ k ih =>
    intro back v hv hk
    have hv0 := h.g_nonneg hv
    by_cases hs : back.coord = start.coord
    · have hx : back.x = start.x := congrArg Prod.fst hs
      have hy : back.y = start.y := congrArg Prod.snd hs
      refine ⟨[], ?_, by simpa using hv0, by simp [hs], by simp [IsWalk]⟩
      intro rfuel pre hr
      obtain ⟨n, rfl⟩ : ∃ n, rfuel = n + 1 := ⟨rfuel - 1, by omega⟩
      simp [reconstruct, hx, hy]
    · obtain ⟨hval, h1, p, hp, hadj, u, hu, hule⟩ := h.tree _ _ hv hs
      obtain ⟨tl, hrec, hlen, hhead, hwalk⟩ := ih p u hu (by push_cast at hk; omega)
      have hcond : back.x ≠ start.x ∨ back.y ≠ start.y := by
        by_contra hcon
        push_neg at hcon
        exact hs (Prod.ext hcon.1 hcon.2)
      refine ⟨p :: tl, ?_, ?_, ?_, ?_⟩
      · intro rfuel pre hr
        obtain ⟨n, rfl⟩ : ∃ n, rfuel = n + 1 := ⟨rfuel - 1, by omega⟩
        have := hrec n (pre ++ [back]) (by omega)
        simp only [reconstruct, if_pos hcond, hp, Option.getD_some]
        rw [this]
        simp
      · simp only [List.length_cons]; push_cast; omega
      · have hne2 : (p :: tl).reverse ≠ [] := by simp
        rw [List.reverse_cons (a := back), List.head?_append_of_ne_nil _ hne2]
        exact hhead
      · rw [List.reverse_cons (a := back), List.map_append, List.map_singleton,
          isWalk_concat]
        refine ⟨hwalk, fun a ha => ?_⟩
        have : a = p.coord := by
          simp [List.getLast?_map, List.getLast?_reverse] at ha
          exact ha.symm
        subst this
        exact ⟨hadj, hval⟩

theorem reconstruct_mono (start : Node) (came : Coord → Option Node) :
    ∀ (n : Nat) (pre : List Node) (back : Node) (p : List Node),
      reconstruct start came n pre back = some p →
      ∀ m, n ≤ m → reconstruct start came m pre back = some p := by
  intro n
  induction n with
  | zero => intro pre back p h; simp [reconstruct] at h
  | succ n ih =>
    intro pre back p h m hm
    obtain ⟨m2, rfl⟩ : ∃ m2, m = m2 + 1 := ⟨m - 1, by omega⟩
    unfold reconstruct at h ⊢
    split
    · rename_i hc
      rw [if_pos hc] at h
      exact ih _ _ _ h m2 (by omega)
    · rename_i hc
      rw [if_neg hc] at h
      exact h

/-! ## The main loop -/

/-- When the node popped is at the goal, the path handed back is a shortest walk. -/
theorem goal_popped {grid : Grid} {q : Frontier} (hq : q.Lawful) {start end_ : Node}
    {st : SearchState} {c0 : Coord}
    (h : Inv grid start.coord end_.coord st c0 (fun _ => True))
    {cur : Node} {rest : List Node} (hpop : q.pop st.open_set = some (cur, rest))
    (hend : cur.coord = end_.coord) :
    ∃ (k : Nat) (p : List Node),
      (∀ rfuel, k < rfuel → reconstruct start st.came_from rfuel [] end_ = some p) ∧
      PathOk grid start end_ p := by
  have hcur : cur ∈ st.open_set := (pop_mem hq hpop cur).mpr (Or.inl rfl)
  obtain ⟨_, ge, hge, hgf⟩ := h.open_ok cur hcur
  rw [hend] at hge hgf
  rw [hDist_self] at hgf
  obtain ⟨tl, hrec, hlen, hhead, hwalk⟩ :=
    reconstruct_spec h ge.toNat end_ ge hge (Int.self_le_toNat ge)
  refine ⟨ge.toNat, (end_ :: tl).reverse, fun rfuel hr => ?_, hhead, by simp, hwalk, ?_⟩
  · simpa using hrec rfuel [] hr
  · intro w hw hh hl
    have hplen : ((end_ :: tl).reverse.length : Int) = tl.length + 1 := by simp
    have hgoal : ge + 1 ≤ (w.length : Int) := by
      rcases walk_bound h w end_.coord hw hh hl with ⟨v, hv, hle⟩ | ⟨n, hn, hle⟩
      · rw [hge] at hv
        cases hv
        exact hle
      · have hmin := hq.pop_min _ _ _ hpop n hn
        rw [hDist_self] at hle
        omega
    omega

theorem searchLoop_sound {W H : Nat} {grid : Grid} (hr : Rect W H grid) (hW : 0 < W)
    {q : Frontier} (hq : q.Lawful) (start end_ : Node) (rfuel : Nat) :
    ∀ (fuel : Nat) (st : SearchState) (c0 : Coord),
      Inv grid start.coord end_.coord st c0 (fun _ => True) →
      searchLoop q grid start end_ rfuel fuel st = .unfinished ∨
      (searchLoop q grid start end_ rfuel fuel st = .path [] ∧
        ¬ Reachable grid start.coord end_.coord) ∨
      ∃ p, searchLoop q grid start end_ rfuel fuel st = .path p ∧
        PathOk grid start end_ p := by
  intro fuel
  induction fuel with
  | zero => intro st c0 _; exact Or.inl rfl
  | succ fuel ih =>
    intro st c0 h
    unfold searchLoop
    cases hpop : q.pop st.open_set with
    | none =>
      have hnil : st.open_set = [] := by
        by_contra hne
        obtain ⟨n, r, hnr⟩ := hq.pop_some _ hne
        rw [hnr] at hpop
        exact absurd hpop (by simp)
      refine Or.inr (Or.inl ⟨rfl, ?_⟩)
      rintro ⟨w, hw, hh, hl⟩
      rcases walk_bound h w end_.coord hw hh hl with ⟨v, hv, _⟩ | ⟨n, hn, _⟩
      · rcases h.goal_open with hnone | ⟨n, hn, _⟩
        · rw [hnone] at hv; exact absurd hv (by simp)
        · rw [hnil] at hn; exact absurd hn (List.not_mem_nil n)
      · rw [hnil] at hn; exact absurd hn (List.not_mem_nil n)
    | some pr =>
      obtain ⟨cur, rest⟩ := pr
      simp only []
      by_cases hend : cur.x = end_.x ∧ cur.y = end_.y
      · rw [if_pos hend]
        obtain ⟨k, p, hrec, hok⟩ := goal_popped hq h hpop (Prod.ext hend.1 hend.2)
        cases hres : reconstruct start st.came_from rfuel [] end_ with
        | none => exact Or.inl rfl
        | some p2 =>
          have h1 := reconstruct_mono _ _ _ _ _ _ hres (max rfuel (k + 1)) (le_max_left _ _)
          have h2 := hrec (max rfuel (k + 1)) (by have := le_max_right rfuel (k + 1); omega)
          rw [h1] at h2
          cases h2
          exact Or.inr (Or.inr ⟨_, rfl, hok⟩)
      · rw [if_neg hend]
        have hne : cur.coord ≠ end_.coord := fun hc =>
          hend ⟨congrArg Prod.fst hc, congrArg Prod.snd hc⟩
        obtain ⟨st2, hex, hinv2, _⟩ :=
          expand_spec hr hW hq end_ cur _ (h.pop hq hpop hne)
        rw [hex]
        exact ih st2 _ hinv2

theorem searchLoop_terminates {W H : Nat} {grid : Grid} (hr : Rect W H grid) (hW : 0 < W)
    {q : Frontier} (hq : q.Lawful) (start end_ : Node) :
    ∀ (a b c : Nat) (st : SearchState) (c0 : Coord),
      unseen W H st = a → total W H st = b → st.open_set.length = c →
      Inv grid start.coord end_.coord st c0 (fun _ => True) →
      ∃ N p, ∀ fuel rfuel, N ≤ fuel → N ≤ rfuel →
        searchLoop q grid start end_ rfuel fuel st = .path p := by
  intro a
  induction a using Nat.strong_induction_on with
  | _ a iha =>
  intro b
  induction b using Nat.strong_induction_on with
  | _ b ihb =>
  intro c
  induction c using Nat.strong_induction_on with
  | _ c ihc =>
  intro st c0 ha hb hc h
  cases hpop : q.pop st.open_set with
  | none =>
    refine ⟨1, [], fun fuel rfuel hf _ => ?_⟩
    obtain ⟨n, rfl⟩ : ∃ n, fuel = n + 1 := ⟨fuel - 1, by omega⟩
    simp [searchLoop, hpop]
  | some pr =>
    obtain ⟨cur, rest⟩ := pr
    by_cases hend : cur.x = end_.x ∧ cur.y = end_.y
    · obtain ⟨k, p, hrec, _⟩ := goal_popped hq h hpop (Prod.ext hend.1 hend.2)
      refine ⟨k + 1, p, fun fuel rfuel hf hrf => ?_⟩
      obtain ⟨n, rfl⟩ : ∃ n, fuel = n + 1 := ⟨fuel - 1, by omega⟩
      simp only [searchLoop, hpop, if_pos hend, hrec rfuel (by omega)]
    · have hne : cur.coord ≠ end_.coord := fun hc =>
        hend ⟨congrArg Prod.fst hc, congrArg Prod.snd hc⟩
      obtain ⟨st2, hex, hinv2, hprog⟩ :=
        expand_spec hr hW hq end_ cur _ (h.pop hq hpop hne)
      have hlen := pop_length hq hpop
      have hnext : ∃ N p, ∀ fuel rfuel, N ≤ fuel → N ≤ rfuel →
          searchLoop q grid start end_ rfuel fuel st2 = .path p := by
        rcases hprog with heq | hlt | ⟨hu, hlt⟩
        · refine ihc rest.length (by omega) st2 _ ?_ ?_ ?_ hinv2
          · rw [heq]; exact ha
          · rw [heq]; exact hb
          · rw [heq]
        · exact iha _ (by rw [← ha]; exact hlt) _ _ st2 _ rfl rfl rfl hinv2
        · refine ihb _ (by rw [← hb]; exact hlt) _ st2 _ ?_ rfl rfl hinv2
          rw [hu]; exact ha
      obtain ⟨N, p, hN⟩ := hnext
      refine ⟨N + 1, p, fun fuel rfuel hf hrf => ?_⟩
      obtain ⟨n, rfl⟩ : ∃ n, fuel = n + 1 := ⟨fuel - 1, by omega⟩
      simp only [searchLoop, hpop, if_neg hend, hex]
      exact hN n rfuel (by omega) (by omega)

/-! ## The whole search -/

theorem a_star_search_succ {q : Frontier} (hq : q.Lawful) (fuel : Nat) (grid : Grid)
    (start end_ : Node) :
    a_star_search q (fuel + 1) grid start end_ =
      if start.x = end_.x ∧ start.y = end_.y then
        match reconstruct start (initState q start).came_from (fuel + 1) [] end_ with
        | none => .unfinished
        | some p => .path p
      else
        match expand q grid end_ start { initState q start with open_set := [] } with
        | none => .fault
        | some st2 => searchLoop q grid start end_ (fuel + 1) fuel st2 := by
  unfold a_star_search
  rw [searchLoop]
  have hpop : q.pop (initState q start).open_set = some (start, []) := pop_init hq start
  rw [hpop]

theorem reconstruct_same (start end_ : Node) (came : Coord → Option Node) (n : Nat)
    (hx : start.x = end_.x) (hy : start.y = end_.y) :
    reconstruct start came (n + 1) [] end_ = some [end_] := by
  simp [reconstruct, hx, hy]

theorem pathOk_same (grid : Grid) (start end_ : Node)
    (hx : start.x = end_.x) (hy : start.y = end_.y) : PathOk grid start end_ [end_] where
  head_start := by simp [Node.coord, hx, hy]
  last_end := by simp
  walk := by simp [IsWalk]
  shortest := fun w _ hh _ => by
    cases w with
    | nil => simp at hh
    | cons a t => simp

/-- A run either exhausts its budget, or hands back the empty path when the goal
cannot be reached, or hands back a shortest walk; it never reads outside the grid. -/
theorem a_star_search_sound {W H : Nat} {grid : Grid} (hr : Rect W H grid) (hW : 0 < W)
    {q : Frontier} (hq : q.Lawful) (start end_ : Node) (fuel : Nat) :
    a_star_search q fuel grid start end_ = .unfinished ∨
    (a_star_search q fuel grid start end_ = .path [] ∧
      ¬ Reachable grid start.coord end_.coord) ∨
    ∃ p, a_star_search q fuel grid start end_ = .path p ∧ PathOk grid start end_ p := by
  cases fuel with
  | zero => exact Or.inl rfl
  | succ fuel =>
    rw [a_star_search_succ hq]
    by_cases hse : start.x = end_.x ∧ start.y = end_.y
    · rw [if_pos hse, reconstruct_same _ _ _ _ hse.1 hse.2]
      exact Or.inr (Or.inr ⟨_, rfl, pathOk_same grid start end_ hse.1 hse.2⟩)
    · rw [if_neg hse]
      have hne : start.coord ≠ end_.coord := fun hc =>
        hse ⟨congrArg Prod.fst hc, congrArg Prod.snd hc⟩
      obtain ⟨st2, hex, hinv2, _⟩ :=
        expand_spec hr hW hq end_ start _ (Inv.init grid hne)
      have hex2 : expand q grid end_ start { initState q start with open_set := [] } =
          some st2 := hex
      rw [hex2]
      exact searchLoop_sound hr hW hq start end_ (fuel + 1) fuel st2 _ hinv2

/-- With enough budget a run ends, and always with the same path. -/
theorem a_star_search_terminates {W H : Nat} {grid : Grid} (hr : Rect W H grid)
    (hW : 0 < W) {q : Frontier} (hq : q.Lawful) (start end_ : Node) :
    ∃ N p, ∀ fuel, N ≤ fuel → a_star_search q fuel grid start end_ = .path p := by
  by_cases hse : start.x = end_.x ∧ start.y = end_.y
  · refine ⟨1, [end_], fun fuel hf => ?_⟩
    obtain ⟨n, rfl⟩ : ∃ n, fuel = n + 1 := ⟨fuel - 1, by omega⟩
    rw [a_star_search_succ hq, if_pos hse, reconstruct_same _ _ _ _ hse.1 hse.2]
  · have hne : start.coord ≠ end_.coord := fun hc =>
      hse ⟨congrArg Prod.fst hc, congrArg Prod.snd hc⟩
    obtain ⟨st2, hex, hinv2, _⟩ :=
      expand_spec hr hW hq end_ start _ (Inv.init grid hne)
    have hex2 : expand q grid end_ start { initState q start with open_set := [] } =
        some st2 := hex
    obtain ⟨N, p, hN⟩ :=
      searchLoop_terminates hr hW hq start end_ _ _ _ st2 _ rfl rfl rfl hinv2
    refine ⟨N + 1, p, fun fuel hf => ?_⟩
    obtain ⟨n, rfl⟩ : ∃ n, fuel = n + 1 := ⟨fuel - 1, by omega⟩
    rw [a_star_search_succ hq, if_neg hse, hex2]
    exact hN n (n + 1) (by omega) (by omega)

/-! ## The concrete frontier -/

theorem popMin_spec : ∀ (l : List Node),
    (l = [] ∧ popMin l = none) ∨
    ∃ n r, popMin l = some (n, r) ∧ l.Perm (n :: r) ∧ ∀ m ∈ l, n.f ≤ m.f
  | [] => Or.inl ⟨rfl, rfl⟩
  | n :: t => by
    right
    rcases popMin_spec t with ⟨ht, hnone⟩ | ⟨m, r, hpop, hperm, hmin⟩
    · subst ht
      exact ⟨n, [], by simp [popMin], List.Perm.refl _, by simp⟩
    · by_cases hle : n.f ≤ m.f
      · refine ⟨n, t, by simp [popMin, hpop, hle], List.Perm.refl _, ?_⟩
        intro x hx
        rcases List.mem_cons.mp hx with hx | hx
        · rw [hx]
        · exact le_trans hle (hmin x hx)
      · refine ⟨m, n :: r, by simp [popMin, hpop, hle], ?_, ?_⟩
        · exact (List.Perm.cons n hperm).trans (List.Perm.swap m n r)
        · intro x hx
          rcases List.mem_cons.mp hx with hx | hx
          · rw [hx]; omega
          · exact hmin x hx

theorem fifoFrontier_lawful : fifoFrontier.Lawful where
  push_perm := fun l n => by
    simp only [fifoFrontier]
    exact List.perm_append_singleton n l
  pop_some := fun l hl => by
    rcases popMin_spec l with ⟨h, _⟩ | ⟨n, r, h, _, _⟩
    · exact absurd h hl
    · exact ⟨n, r, h⟩
  pop_perm := fun l n r h => by
    rcases popMin_spec l with ⟨_, h2⟩ | ⟨n2, r2, h2, hp, _⟩
    · simp only [fifoFrontier] at h; rw [h2] at h; exact absurd h (by simp)
    · simp only [fifoFrontier] at h
      rw [h2] at h
      cases h
      exact hp
  pop_min := fun l n r h => by
    rcases popMin_spec l with ⟨_, h2⟩ | ⟨n2, r2, h2, _, hm⟩
    · simp only [fifoFrontier] at h; rw [h2] at h; exact absurd h (by simp)
    · simp only [fifoFrontier] at h
      rw [h2] at h
      cases h
      exact hm

/-! ## Shape of a returned path -/

theorem adjWalk_length : ∀ (w : List Coord) (a b : Coord), AdjWalk w →
    w.head? = some a → w.getLast? = some b → hDist a b + 1 ≤ w.length
  | [], _, _, _, hh, _ => by simp at hh
  | [x], a, b, _, hh, hl => by
    have h1 : x = a := by simpa using hh
    have h2 : x = b := by simpa using hl
    subst h1; subst h2
    simp [hDist_self]
  | x :: y :: t, a, b, hw, hh, hl => by
    have h1 : x = a := by simpa using hh
    subst h1
    have ih := adjWalk_length (y :: t) y b hw.2 rfl (by simpa using hl)
    have := hDist_step b hw.1
    simp only [List.length_cons] at ih ⊢
    push_cast at ih ⊢
    omega

theorem IsWalk.adjWalk {grid : Grid} : ∀ (w : List Coord), IsWalk grid w → AdjWalk w
  | [], _ => trivial
  | [_], _ => trivial
  | _ :: y :: t, h => ⟨h.1.1, IsWalk.adjWalk (y :: t) h.2⟩

theorem IsWalk.tail_valid {grid : Grid} : ∀ (w : List Coord), IsWalk grid w →
    ∀ c ∈ w.tail, Valid grid c
  | [], _, c, hc => by simp at hc
  | [_], _, c, hc => by simp at hc
  | _ :: y :: t, h, c, hc => by
    rcases List.mem_cons.mp hc with hc | hc
    · rw [hc]; exact h.1.2
    · exact IsWalk.tail_valid (y :: t) h.2 c hc

theorem reconstruct_ends (start : Node) (came : Coord → Option Node) :
    ∀ (n : Nat) (pre : List Node) (back : Node) (p : List Node),
      reconstruct start came n pre back = some p →
      p.head?.map Node.coord = some start.coord ∧ p.getLast? = (pre ++ [back]).head? := by
  intro n
  induction n with
  | zero => intro pre back p h; simp [reconstruct] at h
  | succ n ih =>
    intro pre back p h
    unfold reconstruct at h
    split at h
    · obtain ⟨h1, h2⟩ := ih _ _ _ h
      refine ⟨h1, ?_⟩
      rw [h2]
      cases pre <;> simp
    · rename_i hc
      push_neg at hc
      cases h
      refine ⟨?_, List.getLast?_reverse _⟩
      simp [List.head?_reverse, Node.coord, hc.1, hc.2]

theorem searchLoop_ends (q : Frontier) (grid : Grid) (start end_ : Node) (rfuel : Nat) :
    ∀ (fuel : Nat) (st : SearchState) (p : List Node),
      searchLoop q grid start end_ rfuel fuel st = .path p → p ≠ [] →
      p.head?.map Node.coord = some start.coord ∧ p.getLast? = some end_ := by
  intro fuel
  induction fuel with
  | zero => intro st p h; simp [searchLoop] at h
  | succ fuel ih =>
    intro st p h hp
    unfold searchLoop at h
    split at h
    · cases h; exact absurd rfl hp
    · split at h
      · split at h
        · exact absurd h (by simp)
        · rename_i p2 hrec
          cases h
          simpa using reconstruct_ends _ _ _ _ _ _ hrec
      · split at h
        · exact absurd h (by simp)
        · exact ih _ _ h hp

/-! ## Grids without obstacles -/

theorem gridAt_mem {grid : Grid} {x y : Int} {b : Bool} (h : gridAt grid x y = some b) :
    ∃ col ∈ grid, b ∈ col := by
  unfold gridAt at h
  split at h
  · exact absurd h (by simp)
  · rename_i col hcol
    obtain ⟨hx1, hxe⟩ := List.getElem?_eq_some.mp hcol
    obtain ⟨hy1, hye⟩ := List.getElem?_eq_some.mp h
    exact ⟨col, hxe ▸ List.getElem_mem hx1, hye ▸ List.getElem_mem hy1⟩

theorem valid_of_allFree {W H : Nat} {grid : Grid} (hr : Rect W H grid)
    (hfree : AllFree grid) {c : Coord}
    (hc : 0 ≤ c.1 ∧ c.1 < W ∧ 0 ≤ c.2 ∧ c.2 < H) : Valid grid c := by
  obtain ⟨b, hb⟩ := gridAt_rect hr hc.1 hc.2.1 hc.2.2.1 hc.2.2.2
  obtain ⟨col, hcol, hbc⟩ := gridAt_mem hb
  have : b = false := hfree col hcol b hbc
  subst this
  exact ⟨hc.1, hc.2.2.1, hb⟩

theorem toward_spec {a b : Coord} {n : Nat} (h : hDist a b = n + 1) :
    toward a b ∈ neighbors a ∧ hDist (toward a b) b = n ∧
      (min a.1 b.1 ≤ (toward a b).1 ∧ (toward a b).1 ≤ max a.1 b.1) ∧
      (min a.2 b.2 ≤ (toward a b).2 ∧ (toward a b).2 ≤ max a.2 b.2) := by
  unfold hDist at h
  unfold toward
  rcases abs_cases (a.1 - b.1) with ⟨h1, h2⟩ | ⟨h1, h2⟩ <;>
  rcases abs_cases (a.2 - b.2) with ⟨h3, h4⟩ | ⟨h3, h4⟩ <;>
  split_ifs <;>
  refine ⟨mem_neighbors.mpr (by simp), ?_, ?_, ?_⟩ <;>
  simp only [hDist, le_min_iff, min_le_iff, le_max_iff, max_le_iff] <;>
  first
  | omega
  | (rcases abs_cases (a.1 + 1 - b.1) with ⟨h5, h6⟩ | ⟨h5, h6⟩ <;> omega)
  | (rcases abs_cases (a.1 - 1 - b.1) with ⟨h5, h6⟩ | ⟨h5, h6⟩ <;> omega)
  | (rcases abs_cases (a.2 + 1 - b.2) with ⟨h5, h6⟩ | ⟨h5, h6⟩ <;> omega)
  | (rcases abs_cases (a.2 - 1 - b.2) with ⟨h5, h6⟩ | ⟨h5, h6⟩ <;> omega)

/-- On a grid without obstacles the straight route is a walk of Manhattan length. -/
theorem manhattan_walk {W H : Nat} {grid : Grid} (hr : Rect W H grid)
    (hfree : AllFree grid) (b : Coord) (hb : 0 ≤ b.1 ∧ b.1 < W ∧ 0 ≤ b.2 ∧ b.2 < H) :
    ∀ (n : Nat) (a : Coord), 0 ≤ a.1 ∧ a.1 < W ∧ 0 ≤ a.2 ∧ a.2 < H → hDist a b = n →
      ∃ w, IsWalk grid w ∧ w.head? = some a ∧ w.getLast? = some b ∧ w.length = n + 1 := by
  intro n
  induction n with
  | zero =>
    intro a _ h
    have hab : a = b := by
      unfold hDist at h
      rcases abs_cases (a.1 - b.1) with ⟨h1, h2⟩ | ⟨h1, h2⟩ <;>
      rcases abs_cases (a.2 - b.2) with ⟨h3, h4⟩ | ⟨h3, h4⟩ <;>
      exact Prod.ext (by omega) (by omega)
    subst hab
    exact ⟨[a], trivial, rfl, rfl, rfl⟩
  | succ n ih =>
    intro a ha h
    obtain ⟨hnb, hd, hx, hy⟩ := toward_spec h
    simp only [le_min_iff, min_le_iff, le_max_iff, max_le_iff] at hx hy
    have hin : 0 ≤ (toward a b).1 ∧ (toward a b).1 < W ∧ 0 ≤ (toward a b).2 ∧
        (toward a b).2 < H := by omega
    obtain ⟨w, hw, hh, hl, hlen⟩ := ih (toward a b) hin hd
    cases w with
    | nil => simp at hh
    | cons x t =>
      have hx2 : x = toward a b := by simpa using hh
      subst hx2
      refine ⟨a :: toward a b :: t, ⟨⟨hnb, valid_of_allFree hr hfree hin⟩, hw⟩, rfl, ?_, ?_⟩
      · simpa using hl
      · simp only [List.length_cons] at hlen ⊢
        omega

/-! ## Requests that agree on coordinates -/

theorem visit_sim (q : Frontier) (grid : Grid) {e1 e2 cur1 cur2 : Node}
    (he : e1.coord = e2.coord) (hc : cur1.coord = cur2.coord) {st1 st2 : SearchState}
    (h : Sim st1 st2) (d : Int × Int) :
    SimOpt (visit q grid e1 cur1 st1 d) (visit q grid e2 cur2 st2 d) := by
  obtain ⟨o1, c1, g1⟩ := st1
  obtain ⟨o2, c2, g2⟩ := st2
  obtain ⟨ho, hg, hcm⟩ := h
  simp only at ho hg hcm
  subst ho hg
  have hx : cur1.x = cur2.x := congrArg Prod.fst hc
  have hy : cur1.y = cur2.y := congrArg Prod.snd hc
  have hm1 : ∀ n : Node, manhattanDistance cur1 n = manhattanDistance cur2 n := fun n => by
    simp [manhattanDistance, hx, hy]
  have hm2 : ∀ n : Node, manhattanDistance n e1 = manhattanDistance n e2 := fun n => by
    rw [manhattanDistance_eq, manhattanDistance_eq, he]
  unfold visit
  simp only [hx, hy, hm1, hm2, hc]
  split
  · trivial
  · split
    · trivial
    · exact ⟨rfl, rfl, hcm⟩
    · split
      · refine ⟨rfl, rfl, fun c => ?_⟩
        by_cases hcc : c = (cur2.x + d.1, cur2.y + d.2)
        · simp [setAt, hcc, hc]
        · simp only [setAt, if_neg hcc]
          exact hcm c
      · exact ⟨rfl, rfl, hcm⟩

theorem fold_sim (q : Frontier) (grid : Grid) {e1 e2 cur1 cur2 : Node}
    (he : e1.coord = e2.coord) (hc : cur1.coord = cur2.coord) :
    ∀ (ds : List (Int × Int)) (st1 st2 : SearchState), Sim st1 st2 →
      SimOpt (ds.foldlM (visit q grid e1 cur1) st1) (ds.foldlM (visit q grid e2 cur2) st2) := by
  intro ds
  induction ds with
  | nil => intro st1 st2 h; exact h
  | cons d ds ih =>
    intro st1 st2 h
    have hv := visit_sim q grid he hc h d
    simp only [List.foldlM]
    cases h1 : visit q grid e1 cur1 st1 d <;> cases h2 : visit q grid e2 cur2 st2 d <;>
      rw [h1, h2] at hv
    · trivial
    · exact hv.elim
    · exact hv.elim
    · exact ih _ _ hv

theorem reconstruct_sim {s1 s2 : Node} (hs : s1.coord = s2.coord)
    {came1 came2 : Coord → Option Node}
    (hcm : ∀ c, (came1 c).map Node.coord = (came2 c).map Node.coord) :
    ∀ (n : Nat) (pre1 pre2 : List Node) (b1 b2 : Node),
      pre1.map Node.coord = pre2.map Node.coord → b1.coord = b2.coord →
      (reconstruct s1 came1 n pre1 b1).map (List.map Node.coord) =
        (reconstruct s2 came2 n pre2 b2).map (List.map Node.coord) := by
  have hsx : s1.x = s2.x := congrArg Prod.fst hs
  have hsy : s1.y = s2.y := congrArg Prod.snd hs
  intro n
  induction n with
  | zero => intro _ _ _ _ _ _; rfl
  | succ n ih =>
    intro pre1 pre2 b1 b2 hpre hb
    have hbx : b1.x = b2.x := congrArg Prod.fst hb
    have hby : b1.y = b2.y := congrArg Prod.snd hb
    unfold reconstruct
    simp only [hbx, hby, hsx, hsy]
    split
    · apply ih
      · simp [hpre, hb]
      · have := hcm b2.coord
        rw [hb]
        cases h1 : came1 b2.coord <;> cases h2 : came2 b2.coord <;> rw [h1, h2] at this <;>
          simp at this ⊢
        exact this
    · simp [hpre, hb]

theorem searchLoop_sim (q : Frontier) (grid : Grid) {s1 s2 e1 e2 : Node}
    (hs : s1.coord = s2.coord) (he : e1.coord = e2.coord) (rfuel : Nat) :
    ∀ (fuel : Nat) (st1 st2 : SearchState), Sim st1 st2 →
      SameRoute (searchLoop q grid s1 e1 rfuel fuel st1)
        (searchLoop q grid s2 e2 rfuel fuel st2) := by
  have hex : e1.x = e2.x := congrArg Prod.fst he
  have hey : e1.y = e2.y := congrArg Prod.snd he
  intro fuel
  induction fuel with
  | zero => intro _ _ _; trivial
  | succ fuel ih =>
    intro st1 st2 h
    unfold searchLoop
    rw [h.open_eq]
    cases hpop : q.pop st2.open_set with
    | none => exact rfl
    | some pr =>
      obtain ⟨cur, rest⟩ := pr
      simp only [hex, hey]
      split
      · have hr := reconstruct_sim hs h.came_eq rfuel [] [] e1 e2 rfl he
        cases h1 : reconstruct s1 st1.came_from rfuel [] e1 <;>
          cases h2 : reconstruct s2 st2.came_from rfuel [] e2 <;>
          rw [h1, h2] at hr <;> simp at hr
        · trivial
        · exact hr
      · have hsim : Sim { st1 with open_set := rest } { st2 with open_set := rest } :=
          ⟨rfl, h.g_eq, h.came_eq⟩
        have hf := fold_sim q grid he (rfl : cur.coord = cur.coord) directions _ _ hsim
        unfold expand
        cases h1 : directions.foldlM (visit q grid e1 cur) { st1 with open_set := rest } <;>
          cases h2 : directions.foldlM (visit q grid e2 cur) { st2 with open_set := rest } <;>
          rw [h1, h2] at hf
        · trivial
        · exact hf.elim
        · exact hf.elim
        · exact ih _ _ hf

/-! ## States at the head of the main loop -/

/-- The main loop run for `k` iterations more than `fuel` passes through
`loopState k`. -/
theorem searchLoop_loopState (q : Frontier) (grid : Grid) (start end_ : Node)
    (rfuel : Nat) :
    ∀ (k fuel : Nat) (st : SearchState), loopState q grid start end_ k = some st →
      searchLoop q grid start end_ rfuel (k + fuel) (initState q start) =
        searchLoop q grid start end_ rfuel fuel st := by
  intro k
  induction k with
  | zero =>
    intro fuel st h
    simp only [loopState, Option.some.injEq] at h
    rw [← h, Nat.zero_add]
  | succ k ih =>
    intro fuel st h
    simp only [loopState] at h
    cases hk : loopState q grid start end_ k with
    | none => rw [hk] at h; exact absurd h (by simp)
    | some st0 =>
      rw [hk] at h
      simp only at h
      have h1 := ih (fuel + 1) st0 hk
      rw [show k + 1 + fuel = k + (fuel + 1) by omega, h1]
      unfold loopStep at h
      rw [searchLoop]
      cases hpop : q.pop st0.open_set with
      | none => rw [hpop] at h; exact absurd h (by simp)
      | some pr =>
        obtain ⟨cur, rest⟩ := pr
        rw [hpop] at h
        simp only at h ⊢
        by_cases hend : cur.x = end_.x ∧ cur.y = end_.y
        · rw [if_pos hend] at h; exact absurd h (by simp)
        · rw [if_neg hend] at h ⊢
          rw [h]

/-- A property of states that every improvement keeps is kept by the `for` loop. -/
theorem fold_visit_preserves {W H : Nat} {grid : Grid} (hr : Rect W H grid) (hW : 0 < W)
    {q : Frontier} (hq : q.Lawful) {s : Coord} (end_ cur : Node) (Q : SearchState → Prop)
    (hQ : ∀ (st : SearchState) (nb : Coord) (gc : Int) (P : Coord → Prop),
      Inv grid s end_.coord st cur.coord P → Q st → st.g_score cur.coord = some gc →
      nb ∈ neighbors cur.coord → Valid grid nb →
      (∀ old, st.g_score nb = some old → gc + 1 < old) →
      Q (improved q end_ cur st nb (gc + 1))) :
    ∀ (ds : List (Int × Int)), (∀ d ∈ ds, d ∈ directions) →
    ∀ (st : SearchState) (P : Coord → Prop), Inv grid s end_.coord st cur.coord P → Q st →
    ∀ st2, ds.foldlM (visit q grid end_ cur) st = some st2 → Q st2 := by
  intro ds
  induction ds with
  | nil =>
    intro _ st P _ hq0 st2 h
    simp only [List.foldlM, pure, Option.some.injEq] at h
    rw [← h]; exact hq0
  | cons d ds ih =>
    intro hds st P h hq0 st2 hfold
    obtain ⟨gc, hgc⟩ := h.cur_known
    have hd : d ∈ directions := hds d (List.mem_cons_self _ _)
    have hveq := visit_eq hr hW q end_ cur st hd hgc
    simp only [List.foldlM, hveq] at hfold
    by_cases hc : Valid grid (cur.x + d.1, cur.y + d.2) ∧
        (∀ old, st.g_score (cur.x + d.1, cur.y + d.2) = some old → gc + 1 < old)
    · rw [if_pos hc] at hfold
      exact ih (fun d hd => hds d (List.mem_cons_of_mem _ hd)) _ _
        (h.improve hq rfl hgc (dir_neighbor cur hd) hc.1 hc.2)
        (hQ st _ gc P h hq0 hgc (dir_neighbor cur hd) hc.1 hc.2) st2 hfold
    · rw [if_neg hc] at hfold
      exact ih (fun d hd => hds d (List.mem_cons_of_mem _ hd)) _ _ (h.skip hgc hc) hq0 st2 hfold

/-- At the head of the main loop the state is the initial one or satisfies `Inv`;
the node popped there, if not at the goal, starts its expansion under `Inv`. -/
theorem loopHead_pop {grid : Grid} {q : Frontier} (hq : q.Lawful) {start end_ : Node}
    {st : SearchState}
    (hst : st = initState q start ∨
      ∃ c0, Inv grid start.coord end_.coord st c0 (fun _ => True))
    {cur : Node} {rest : List Node} (hpop : q.pop st.open_set = some (cur, rest))
    (hend : ¬ (cur.x = end_.x ∧ cur.y = end_.y)) :
    Inv grid start.coord end_.coord { st with open_set := rest } cur.coord
      (fun _ => False) := by
  have hne : cur.coord ≠ end_.coord := fun hc =>
    hend ⟨congrArg Prod.fst hc, congrArg Prod.snd hc⟩
  rcases hst with hinit | ⟨c0, hinv⟩
  · subst hinit
    have h2 := pop_init hq start
    have h3 : q.pop (initState q start).open_set = some (start, []) := h2
    rw [h3] at hpop
    simp only [Option.some.injEq, Prod.mk.injEq] at hpop
    obtain ⟨h4, h5⟩ := hpop
    subst h4 h5
    exact Inv.init grid hne
  · exact hinv.pop hq hpop hne

theorem loopState_head {W H : Nat} {grid : Grid} (hr : Rect W H grid) (hW : 0 < W)
    {q : Frontier} (hq : q.Lawful) (start end_ : Node) :
    ∀ (k : Nat) (st : SearchState), loopState q grid start end_ k = some st →
      st = initState q start ∨
        ∃ c0, Inv grid start.coord end_.coord st c0 (fun _ => True) := by
  intro k
  induction k with
  | zero =>
    intro st h
    simp only [loopState, Option.some.injEq] at h
    exact Or.inl h.symm
  | succ k ih =>
    intro st h
    simp only [loopState] at h
    cases hk : loopState q grid start end_ k with
    | none => rw [hk] at h; exact absurd h (by simp)
    | some st0 =>
      rw [hk] at h
      simp only [loopStep] at h
      cases hpop : q.pop st0.open_set with
      | none => rw [hpop] at h; exact absurd h (by simp)
      | some pr =>
        obtain ⟨cur, rest⟩ := pr
        rw [hpop] at h
        simp only at h
        by_cases hend : cur.x = end_.x ∧ cur.y = end_.y
        · rw [if_pos hend] at h; exact absurd h (by simp)
        · rw [if_neg hend] at h
          obtain ⟨st2, hex, hinv2, _⟩ :=
            expand_spec hr hW hq end_ cur _ (loopHead_pop hq (ih st0 hk) hpop hend)
          rw [hex] at h
          simp only [Option.some.injEq] at h
          exact Or.inr ⟨_, h ▸ hinv2⟩

/-- A property that holds initially, does not depend on the frontier and is kept
by every improvement holds at the head of every iteration. -/
theorem loopState_preserves {W H : Nat} {grid : Grid} (hr : Rect W H grid) (hW : 0 < W)
    {q : Frontier} (hq : q.Lawful) (start end_ : Node) (Q : SearchState → Prop)
    (hinit : Q (initState q start))
    (hopen : ∀ (st : SearchState) (l : List Node), Q st → Q { st with open_set := l })
    (hQ : ∀ (cur : Node) (st : SearchState) (nb : Coord) (gc : Int) (P : Coord → Prop),
      Inv grid start.coord end_.coord st cur.coord P → Q st →
      st.g_score cur.coord = some gc → nb ∈ neighbors cur.coord → Valid grid nb →
      (∀ old, st.g_score nb = some old → gc + 1 < old) →
      Q (improved q end_ cur st nb (gc + 1))) :
    ∀ (k : Nat) (st : SearchState), loopState q grid start end_ k = some st → Q st := by
  intro k
  induction k with
  | zero =>
    intro st h
    simp only [loopState, Option.some.injEq] at h
    rw [← h]; exact hinit
  | succ k ih =>
    intro st h
    simp only [loopState] at h
    cases hk : loopState q grid start end_ k with
    | none => rw [hk] at h; exact absurd h (by simp)
    | some st0 =>
      rw [hk] at h
      simp only [loopStep] at h
      cases hpop : q.pop st0.open_set with
      | none => rw [hpop] at h; exact absurd h (by simp)
      | some pr =>
        obtain ⟨cur, rest⟩ := pr
        rw [hpop] at h
        simp only at h
        by_cases hend : cur.x = end_.x ∧ cur.y = end_.y
        · rw [if_pos hend] at h; exact absurd h (by simp)
        · rw [if_neg hend] at h
          exact fold_visit_preserves hr hW hq end_ cur Q (hQ cur) directions
            (fun _ hd => hd) _ _
            (loopHead_pop hq (loopState_head hr hW hq start end_ k st0 hk) hpop hend)
            (hopen st0 rest (ih st0 hk)) st h

theorem costsAreWalks_improved {grid : Grid} {s : Coord} {q : Frontier} {end_ cur : Node}
    {st : SearchState} {nb : Coord} {gc : Int} (h : CostsAreWalks grid s st)
    (hgc : st.g_score cur.coord = some gc) (hnb : nb ∈ neighbors cur.coord)
    (hval : Valid grid nb) :
    CostsAreWalks grid s (improved q end_ cur st nb (gc + 1)) := by
  intro c v hc
  by_cases hcn : c = nb
  · subst hcn
    simp only [improved, setAt_same, Option.some.injEq] at hc
    subst hc
    obtain ⟨w, hw, hh, hl, hlen⟩ := h _ _ hgc
    have hne : w ≠ [] := by
      intro hnil; subst hnil; simp at hh
    refine ⟨w ++ [c], ?_, ?_, by simp, ?_⟩
    · rw [isWalk_concat]
      refine ⟨hw, fun a ha => ?_⟩
      rw [hl] at ha
      cases ha
      exact ⟨hnb, hval⟩
    · rw [List.head?_append_of_ne_nil _ hne]; exact hh
    · simp only [List.length_append, List.length_singleton]
      push_cast
      omega
  · simp only [improved] at hc
    rw [setAt_other _ _ hcn] at hc
    exact h c v hc

theorem costsFall_improved {q : Frontier} {end_ cur : Node} {st0 st : SearchState}
    {nb : Coord} {t : Int} (h : CostsFall st0 st)
    (hlt : ∀ old, st.g_score nb = some old → t < old) :
    CostsFall st0 (improved q end_ cur st nb t) := by
  intro c v hc
  obtain ⟨v2, hv2, hle⟩ := h c v hc
  by_cases hcn : c = nb
  · subst hcn
    refine ⟨t, by simp [improved, setAt_same], Or.inr ?_⟩
    have := hlt v2 hv2
    omega
  · refine ⟨v2, ?_, hle⟩
    simp only [improved]
    rw [setAt_other _ _ hcn]
    exact hv2

theorem loopState_costsAreWalks {W H : Nat} {grid : Grid} (hr : Rect W H grid)
    (hW : 0 < W) {q : Frontier} (hq : q.Lawful) (start end_ : Node) (k : Nat)
    (st : SearchState) (h : loopState q grid start end_ k = some st) :
    CostsAreWalks grid start.coord st := by
  refine loopState_preserves hr hW hq start end_ (CostsAreWalks grid start.coord)
    ?_ (fun _ _ hQ => hQ) ?_ k st h
  · intro c v hc
    by_cases hcs : c = start.coord
    · subst hcs
      simp only [initState, setAt_same, Option.some.injEq] at hc
      subst hc
      exact ⟨[start.coord], trivial, rfl, rfl, by simp⟩
    · simp only [initState] at hc
      rw [setAt_other _ _ hcs] at hc
      exact absurd hc (by simp)
  · intro cur st nb gc P _ hQ hgc hnb hval _
    exact costsAreWalks_improved hQ hgc hnb hval

theorem loopStep_costsFall {W H : Nat} {grid : Grid} (hr : Rect W H grid)
    (hW : 0 < W) {q : Frontier} (hq : q.Lawful) (start end_ : Node) (k : Nat)
    (st st2 : SearchState) (h : loopState q grid start end_ k = some st)
    (h2 : loopState q grid start end_ (k + 1) = some st2) : CostsFall st st2 := by
  simp only [loopState, h, loopStep] at h2
  cases hpop : q.pop st.open_set with
  | none => rw [hpop] at h2; exact absurd h2 (by simp)
  | some pr =>
    obtain ⟨cur, rest⟩ := pr
    rw [hpop] at h2
    simp only at h2
    by_cases hend : cur.x = end_.x ∧ cur.y = end_.y
    · rw [if_pos hend] at h2; exact absurd h2 (by simp)
    · rw [if_neg hend] at h2
      refine fold_visit_preserves hr hW hq end_ cur (CostsFall st) ?_ directions
        (fun _ hd => hd) _ _
        (loopHead_pop hq (loopState_head hr hW hq start end_ k st h) hpop hend)
        (fun c v hc => ⟨v, hc, Or.inl rfl⟩) st2 h2
      intro x nb gc P _ hQ _ _ _ hlt
      exact costsFall_improved hQ hlt

/-- What holds of the `g_score` and `came_from` entries at the head of every
iteration. -/
theorem loopState_tree {W H : Nat} {grid : Grid} (hr : Rect W H grid)
    (hW : 0 < W) {q : Frontier} (hq : q.Lawful) (start end_ : Node) (k : Nat)
    (st : SearchState) (h : loopState q grid start end_ k = some st) :
    st.g_score start.coord = some 0 ∧
    ∀ c v, st.g_score c = some v → c ≠ start.coord →
      Valid grid c ∧ 1 ≤ v ∧ ∃ p, st.came_from c = some p ∧ c ∈ neighbors p.coord ∧
        ∃ u, st.g_score p.coord = some u ∧ u + 1 ≤ v := by
  rcases loopState_head hr hW hq start end_ k st h with hinit | ⟨c0, hinv⟩
  · subst hinit
    refine ⟨by simp [initState, setAt_same], fun c v hc hcs => ?_⟩
    simp only [initState] at hc
    rw [setAt_other _ _ hcs] at hc
    exact absurd hc (by simp)
  · exact ⟨hinv.g_start, hinv.tree⟩

/-! ## Claims about the search -/

set_option maxRecDepth 100000

/-- C1: optimality of `a_star_search`.  On a rectangular grid with at least one
column and a frontier that pops a node of least `f`, a returned non-empty path has
no more nodes than any sequence of cells that leads from the start cell to the goal
cell by steps to 4-adjacent, in-range, unblocked cells. -/
theorem a_star_search_optimal {W H : Nat} {grid : Grid} {q : Frontier} (hq : q.Lawful)
    (hr : Rect W H grid) (hW : 0 < W) (start end_ : Node) (fuel : Nat) (p : List Node)
    (hrun : a_star_search q fuel grid start end_ = .path p) (hp : p ≠ [])
    (w : List Coord) (hw : IsWalk grid w) (hs : w.head? = some start.coord)
    (he : w.getLast? = some end_.coord) : p.length ≤ w.length := by
  rcases a_star_search_sound hr hW hq start end_ fuel with h | ⟨h, _⟩ | ⟨p2, h, hok⟩
  · rw [h] at hrun; exact absurd hrun (by simp)
  · rw [h] at hrun; cases hrun; exact absurd rfl hp
  · rw [h] at hrun; cases hrun; exact hok.shortest w hw hs he

/-- Witness for C1: the 3 by 3 grid with only `(1,1)` blocked, from `(0,0)` to
`(2,2)`: the path has 5 nodes, as many as the walk along the other two sides. -/
theorem a_star_search_optimal_witness :
    a_star_search fifoFrontier 30
        [[false, false, false], [false, true, false], [false, false, false]]
        { x := 0, y := 0 } { x := 2, y := 2 } =
      .path [{ x := 0, y := 0 }, { x := 0, y := 1, g := 1, h := 3, f := 4 },
        { x := 0, y := 2, g := 2, h := 2, f := 4 }, { x := 1, y := 2, g := 3, h := 1, f := 4 },
        { x := 2, y := 2 }] ∧
    [({ x := 0, y := 0 } : Node), { x := 0, y := 1, g := 1, h := 3, f := 4 },
        { x := 0, y := 2, g := 2, h := 2, f := 4 }, { x := 1, y := 2, g := 3, h := 1, f := 4 },
        { x := 2, y := 2 }].length ≤
      [((0, 0) : Coord), (1, 0), (2, 0), (2, 1), (2, 2)].length :=
  ⟨by decide,
   a_star_search_optimal fifoFrontier_lawful
     (by decide : Rect 3 3 [[false, false, false], [false, true, false], [false, false, false]])
     (by decide) { x := 0, y := 0 } { x := 2, y := 2 } 30 _ (by decide) (by decide)
     [(0, 0), (1, 0), (2, 0), (2, 1), (2, 2)] (by decide) (by decide) (by decide)⟩

/-- C3: on a rectangular grid with at least one column, a run with enough budget
ends with one path `p`, and `p` is empty exactly when no sequence of steps to
4-adjacent, in-range, unblocked cells leads from the start cell to the goal cell. -/
theorem a_star_search_empty_iff_unreachable {W H : Nat} {grid : Grid} {q : Frontier}
    (hq : q.Lawful) (hr : Rect W H grid) (hW : 0 < W) (start end_ : Node) :
    ∃ N p, (∀ fuel, N ≤ fuel → a_star_search q fuel grid start end_ = .path p) ∧
      (p = [] ↔ ¬ Reachable grid start.coord end_.coord) := by
  obtain ⟨N, p, hN⟩ := a_star_search_terminates hr hW hq start end_
  refine ⟨N, p, hN, ?_⟩
  have hrun := hN N (le_refl _)
  rcases a_star_search_sound hr hW hq start end_ N with h | ⟨h, hun⟩ | ⟨p2, h, hok⟩
  · rw [h] at hrun; exact absurd hrun (by simp)
  · rw [h] at hrun; cases hrun; exact ⟨fun _ => hun, fun _ => rfl⟩
  · have hpp : p = p2 := by rw [h] at hrun; exact (Outcome.path.inj hrun).symm
    rw [hpp]
    have hne : p2 ≠ [] := by
      intro hnil
      have := hok.head_start
      rw [hnil] at this
      simp at this
    have hreach : Reachable grid start.coord end_.coord :=
      ⟨p2.map Node.coord, hok.walk, by simpa using hok.head_start,
        by rw [List.getLast?_map, hok.last_end]; rfl⟩
    exact ⟨fun hnil => absurd hnil hne, fun hun => absurd hreach hun⟩

/-- Witness for C3: the grid of one column of height 3 with `(0,1)` blocked, from
`(0,0)` to `(0,2)`: the run gives the empty path. -/
theorem a_star_search_empty_iff_unreachable_witness :
    a_star_search fifoFrontier 10 [[false, true, false]] { x := 0, y := 0 }
        { x := 0, y := 2 } = .path [] ∧
    ∃ N p, (∀ fuel, N ≤ fuel →
        a_star_search fifoFrontier fuel [[false, true, false]] { x := 0, y := 0 }
          { x := 0, y := 2 } = .path p) ∧
      (p = [] ↔ ¬ Reachable [[false, true, false]] (0, 0) (0, 2)) :=
  ⟨by decide,
   a_star_search_empty_iff_unreachable fifoFrontier_lawful
     (by decide : Rect 1 3 [[false, true, false]]) (by decide)
     { x := 0, y := 0 } { x := 0, y := 2 }⟩

/-- C4: whenever a run returns a non-empty path, its first node has the coordinates
of the requested start and its last node has the coordinates of the requested end
(the last node is the requested end node itself). -/
theorem a_star_search_endpoints (q : Frontier) (grid : Grid) (start end_ : Node)
    (fuel : Nat) (p : List Node)
    (hrun : a_star_search q fuel grid start end_ = .path p) (hp : p ≠ []) :
    p.head?.map Node.coord = some start.coord ∧
      p.getLast?.map Node.coord = some end_.coord := by
  obtain ⟨h1, h2⟩ := searchLoop_ends q grid start end_ fuel fuel _ p hrun hp
  exact ⟨h1, by rw [h2]; rfl⟩

/-- Witness for C4: the 3 by 3 free grid from `(0,0)` to `(2,2)`. -/
theorem a_star_search_endpoints_witness :
    ([({ x := 0, y := 0 } : Node), { x := 0, y := 1, g := 1, h := 3, f := 4 },
        { x := 0, y := 2, g := 2, h := 2, f := 4 }, { x := 1, y := 2, g := 3, h := 1, f := 4 },
        { x := 2, y := 2 }].head?.map Node.coord = some (0, 0)) ∧
    ([({ x := 0, y := 0 } : Node), { x := 0, y := 1, g := 1, h := 3, f := 4 },
        { x := 0, y := 2, g := 2, h := 2, f := 4 }, { x := 1, y := 2, g := 3, h := 1, f := 4 },
        { x := 2, y := 2 }].getLast?.map Node.coord = some (2, 2)) :=
  a_star_search_endpoints fifoFrontier
    [[false, false, false], [false, false, false], [false, false, false]]
    { x := 0, y := 0 } { x := 2, y := 2 } 30 _ (by decide) (by decide)

/-- C5, as the code has it: on a rectangular grid with at least one column, every
consecutive pair of nodes of a returned path differs by one of the four
`directions`, and every node after the first is an in-range cell that is not
blocked.  The first node is the requested start, which the search never checks. -/
theorem a_star_search_path_steps {W H : Nat} {grid : Grid} {q : Frontier} (hq : q.Lawful)
    (hr : Rect W H grid) (hW : 0 < W) (start end_ : Node) (fuel : Nat) (p : List Node)
    (hrun : a_star_search q fuel grid start end_ = .path p) :
    AdjWalk (p.map Node.coord) ∧
      ∀ n ∈ p.tail, 0 ≤ n.x ∧ n.x < W ∧ 0 ≤ n.y ∧ n.y < H ∧
        gridAt grid n.x n.y = some false := by
  have hwalk : IsWalk grid (p.map Node.coord) := by
    rcases a_star_search_sound hr hW hq start end_ fuel with h | ⟨h, _⟩ | ⟨p2, h, hok⟩
    · rw [h] at hrun; exact absurd hrun (by simp)
    · rw [h] at hrun; cases hrun; trivial
    · rw [h] at hrun; cases hrun; exact hok.walk
  refine ⟨hwalk.adjWalk, fun n hn => ?_⟩
  have hv : Valid grid n.coord :=
    hwalk.tail_valid _ n.coord (by
      rw [← List.map_tail]
      exact List.mem_map_of_mem _ hn)
  have hin := valid_inRange hr hv
  exact ⟨hin.1, hin.2.1, hin.2.2.1, hin.2.2.2, hv.2.2⟩

/-- Witness for C5: the 2 by 1 grid whose cell `(0,0)` is blocked, from `(0,0)` to
`(1,0)`. -/
theorem a_star_search_path_steps_witness :
    AdjWalk ([({ x := 0, y := 0 } : Node), { x := 1, y := 0 }].map Node.coord) ∧
      ∀ n ∈ [({ x := 0, y := 0 } : Node), { x := 1, y := 0 }].tail,
        0 ≤ n.x ∧ n.x < (2 : Nat) ∧ 0 ≤ n.y ∧ n.y < (1 : Nat) ∧
          gridAt [[true], [false]] n.x n.y = some false :=
  a_star_search_path_steps fifoFrontier_lawful (by decide : Rect 2 1 [[true], [false]])
    (by decide) { x := 0, y := 0 } { x := 1, y := 0 } 5 _ (by decide)

/-- Counterexample to C5 as stated: on the 2 by 1 grid whose cell `(0,0)` is
blocked, the request from the in-range cell `(0,0)` to `(1,0)` returns a path whose
first node is the blocked cell. -/
theorem a_star_search_path_steps_counterexample :
    ∃ p, a_star_search fifoFrontier 5 [[true], [false]] { x := 0, y := 0 }
        { x := 1, y := 0 } = .path p ∧
      ¬ (∀ n ∈ p, gridAt [[true], [false]] n.x n.y = some false) :=
  ⟨[{ x := 0, y := 0 }, { x := 1, y := 0 }], by decide, by decide⟩

/-- C7: on a grid of `W` columns of height `H`, `isValid` never reads outside the
grid and is true exactly for the in-range cells that are not blocked; for
out-of-range coordinates it answers false whatever grid it is handed, so without
reading it; and when the grid has a column, no run of `a_star_search` reads outside
the grid. -/
theorem isValid_in_range_and_safe {W H : Nat} {grid : Grid} (hr : Rect W H grid) :
    (∀ x y : Int, isValid x y W H grid ≠ none ∧
      (isValid x y W H grid = some true ↔
        0 ≤ x ∧ x < W ∧ 0 ≤ y ∧ y < H ∧ gridAt grid x y = some false)) ∧
    (∀ (x y : Int) (other : Grid), ¬ (0 ≤ x ∧ x < W ∧ 0 ≤ y ∧ y < H) →
      isValid x y W H other = some false) ∧
    (∀ (q : Frontier) (start end_ : Node) (fuel : Nat), q.Lawful → 0 < W →
      a_star_search q fuel grid start end_ ≠ .fault) := by
  refine ⟨fun x y => ?_, fun x y other hout => ?_, fun q start end_ fuel hq hW => ?_⟩
  · rw [isValid_rect hr]
    refine ⟨by simp, ?_⟩
    constructor
    · intro h
      have hv : Valid grid (x, y) := by simpa using h
      have hin := valid_inRange hr hv
      exact ⟨hin.1, hin.2.1, hin.2.2.1, hin.2.2.2, hv.2.2⟩
    · intro h
      have hv : Valid grid (x, y) := ⟨h.1, h.2.2.1, h.2.2.2.2⟩
      simp [hv]
  · unfold isValid
    rw [if_neg]
    intro h
    exact hout ⟨h.1, h.2.1, h.2.2.1, h.2.2.2⟩
  · rcases a_star_search_sound hr hW hq start end_ fuel with h | ⟨h, _⟩ | ⟨p2, h, _⟩ <;>
      rw [h] <;> simp

/-- Witness for C7: the 3 by 3 grid with `(1,1)` blocked. -/
theorem isValid_in_range_and_safe_witness :
    (∀ x y : Int,
      isValid x y (3 : Nat) (3 : Nat)
          [[false, false, false], [false, true, false], [false, false, false]] ≠ none ∧
      (isValid x y (3 : Nat) (3 : Nat)
          [[false, false, false], [false, true, false], [false, false, false]] = some true ↔
        0 ≤ x ∧ x < (3 : Nat) ∧ 0 ≤ y ∧ y < (3 : Nat) ∧
          gridAt [[false, false, false], [false, true, false], [false, false, false]] x y =
            some false)) ∧
    (∀ (x y : Int) (other : Grid), ¬ (0 ≤ x ∧ x < (3 : Nat) ∧ 0 ≤ y ∧ y < (3 : Nat)) →
      isValid x y (3 : Nat) (3 : Nat) other = some false) ∧
    (∀ (q : Frontier) (start end_ : Node) (fuel : Nat), q.Lawful → 0 < 3 →
      a_star_search q fuel
        [[false, false, false], [false, true, false], [false, false, false]] start end_ ≠
          .fault) :=
  isValid_in_range_and_safe
    (by decide : Rect 3 3 [[false, false, false], [false, true, false], [false, false, false]])

/-- C8: `manhattanDistance` is admissible and consistent for steps to 4-adjacent
cells of cost 1: it is at most the number of steps of any sequence of 4-adjacent
cells from `n` to `end_`, it is 0 when `n` has the coordinates of `end_`, it drops by
at most 1 towards any 4-adjacent neighbour `m`, and it is 1 between `n` and such a
neighbour, which is the cost `visit` adds. -/
theorem manhattanDistance_admissible_consistent (n end_ : Node) :
    (∀ w : List Coord, AdjWalk w → w.head? = some n.coord →
      w.getLast? = some end_.coord → manhattanDistance n end_ ≤ (w.length : Int) - 1) ∧
    (n.coord = end_.coord → manhattanDistance n end_ = 0) ∧
    (∀ m : Node, m.coord ∈ neighbors n.coord →
      manhattanDistance n end_ ≤ 1 + manhattanDistance m end_ ∧
        manhattanDistance n m = 1) := by
  refine ⟨fun w hw hh hl => ?_, fun h => ?_, fun m hm => ⟨?_, ?_⟩⟩
  · have := adjWalk_length w _ _ hw hh hl
    rw [manhattanDistance_eq]
    omega
  · rw [manhattanDistance_eq, h, hDist_self]
  · rw [manhattanDistance_eq, manhattanDistance_eq]
    exact hDist_step _ hm
  · rw [manhattanDistance_eq]
    exact hDist_neighbor hm

/-- C2: on a grid without blocked cells, for in-range start and end a run with enough
budget ends with a path whose number of nodes is
`|start.x - end.x| + |start.y - end.y| + 1`. -/
theorem a_star_search_free_grid_length {W H : Nat} {grid : Grid} {q : Frontier}
    (hq : q.Lawful) (hr : Rect W H grid) (hfree : AllFree grid) (start end_ : Node)
    (hs : 0 ≤ start.x ∧ start.x < W ∧ 0 ≤ start.y ∧ start.y < H)
    (he : 0 ≤ end_.x ∧ end_.x < W ∧ 0 ≤ end_.y ∧ end_.y < H) :
    ∃ N p, (∀ fuel, N ≤ fuel → a_star_search q fuel grid start end_ = .path p) ∧
      (p.length : Int) = |start.x - end_.x| + |start.y - end_.y| + 1 := by
  have hW : 0 < W := by omega
  obtain ⟨N, p, hN⟩ := a_star_search_terminates hr hW hq start end_
  refine ⟨N, p, hN, ?_⟩
  have hrun := hN N (le_refl _)
  have hd0 : 0 ≤ hDist start.coord end_.coord := hDist_nonneg _ _
  obtain ⟨w, hw, hh, hl, hlen⟩ :=
    manhattan_walk hr hfree end_.coord he (hDist start.coord end_.coord).toNat start.coord hs
      (Int.toNat_of_nonneg hd0).symm
  have hmd : hDist start.coord end_.coord = |start.x - end_.x| + |start.y - end_.y| := rfl
  rcases a_star_search_sound hr hW hq start end_ N with h | ⟨h, hun⟩ | ⟨p2, h, hok⟩
  · rw [h] at hrun; exact absurd hrun (by simp)
  · exact absurd ⟨w, hw, hh, hl⟩ hun
  · have hpp : p = p2 := by rw [h] at hrun; exact (Outcome.path.inj hrun).symm
    rw [hpp]
    have hup := hok.shortest w hw hh hl
    have hlow := adjWalk_length (p2.map Node.coord) start.coord end_.coord
      hok.walk.adjWalk (by simpa using hok.head_start)
      (by rw [List.getLast?_map, hok.last_end]; rfl)
    rw [List.length_map] at hlow
    omega

/-- Witness for C2: the 3 by 3 grid without obstacles, from `(0,0)` to `(2,2)`: the
path has 5 nodes. -/
theorem a_star_search_free_grid_length_witness :
    a_star_search fifoFrontier 30
        [[false, false, false], [false, false, false], [false, false, false]]
        { x := 0, y := 0 } { x := 2, y := 2 } =
      .path [{ x := 0, y := 0 }, { x := 0, y := 1, g := 1, h := 3, f := 4 },
        { x := 0, y := 2, g := 2, h := 2, f := 4 }, { x := 1, y := 2, g := 3, h := 1, f := 4 },
        { x := 2, y := 2 }] ∧
    ∃ N p, (∀ fuel, N ≤ fuel →
        a_star_search fifoFrontier fuel
          [[false, false, false], [false, false, false], [false, false, false]]
          { x := 0, y := 0 } { x := 2, y := 2 } = .path p) ∧
      (p.length : Int) = |(0 : Int) - 2| + |(0 : Int) - 2| + 1 :=
  ⟨by decide,
   a_star_search_free_grid_length fifoFrontier_lawful
     (by decide : Rect 3 3 [[false, false, false], [false, false, false], [false, false, false]])
     (by decide) { x := 0, y := 0 } { x := 2, y := 2 } (by decide) (by decide)⟩

/-- C6: two requests on the same grid whose start nodes have equal coordinates and
whose end nodes have equal coordinates, whatever their `g`, `h`, `f` fields hold,
give outcomes of the same kind and paths through the same cells; and the same
request gives the same path. -/
theorem a_star_search_coord_deterministic {q : Frontier} (hq : q.Lawful) (grid : Grid)
    (s1 s2 e1 e2 : Node) (hs : s1.coord = s2.coord) (he : e1.coord = e2.coord)
    (fuel : Nat) :
    SameRoute (a_star_search q fuel grid s1 e1) (a_star_search q fuel grid s2 e2) ∧
      (s1 = s2 → e1 = e2 →
        a_star_search q fuel grid s1 e1 = a_star_search q fuel grid s2 e2) := by
  refine ⟨?_, fun h1 h2 => by rw [h1, h2]⟩
  cases fuel with
  | zero => trivial
  | succ fuel =>
    have hsx : s1.x = s2.x := congrArg Prod.fst hs
    have hsy : s1.y = s2.y := congrArg Prod.snd hs
    have hex : e1.x = e2.x := congrArg Prod.fst he
    have hey : e1.y = e2.y := congrArg Prod.snd he
    have hcm : ∀ c, ((initState q s1).came_from c).map Node.coord =
        ((initState q s2).came_from c).map Node.coord := by
      intro c
      simp only [initState, setAt, hs]
      split <;> simp [hs]
    rw [a_star_search_succ hq, a_star_search_succ hq]
    simp only [hsx, hsy, hex, hey]
    split
    · have hr := reconstruct_sim hs hcm (fuel + 1) [] [] e1 e2 rfl he
      cases h1 : reconstruct s1 (initState q s1).came_from (fuel + 1) [] e1 <;>
        cases h2 : reconstruct s2 (initState q s2).came_from (fuel + 1) [] e2 <;>
        rw [h1, h2] at hr <;> simp at hr
      · trivial
      · exact hr
    · have hsim : Sim { initState q s1 with open_set := [] }
          { initState q s2 with open_set := [] } :=
        ⟨rfl, by simp [initState, hs], hcm⟩
      have hf := fold_sim q grid he hs directions _ _ hsim
      unfold expand
      cases h1 : directions.foldlM (visit q grid e1 s1) { initState q s1 with open_set := [] } <;>
        cases h2 : directions.foldlM (visit q grid e2 s2)
          { initState q s2 with open_set := [] } <;>
        rw [h1, h2] at hf
      · trivial
      · exact hf.elim
      · exact hf.elim
      · exact searchLoop_sim q grid hs he (fuel + 1) fuel _ _ hf

/-- Witness for C6: the 3 by 3 grid with `(1,1)` blocked, the request from `(0,0)`
to `(2,2)` once with arbitrary bookkeeping fields and once with none. -/
theorem a_star_search_coord_deterministic_witness :
    SameRoute
        (a_star_search fifoFrontier 30
          [[false, false, false], [false, true, false], [false, false, false]]
          { x := 0, y := 0, g := 5, h := 7, f := 9 } { x := 2, y := 2, g := 1, h := 1, f := 3 })
        (a_star_search fifoFrontier 30
          [[false, false, false], [false, true, false], [false, false, false]]
          { x := 0, y := 0 } { x := 2, y := 2 }) ∧
      (({ x := 0, y := 0, g := 5, h := 7, f := 9 } : Node) = { x := 0, y := 0 } →
        ({ x := 2, y := 2, g := 1, h := 1, f := 3 } : Node) = { x := 2, y := 2 } →
        a_star_search fifoFrontier 30
            [[false, false, false], [false, true, false], [false, false, false]]
            { x := 0, y := 0, g := 5, h := 7, f := 9 }
            { x := 2, y := 2, g := 1, h := 1, f := 3 } =
          a_star_search fifoFrontier 30
            [[false, false, false], [false, true, false], [false, false, false]]
            { x := 0, y := 0 } { x := 2, y := 2 }) :=
  a_star_search_coord_deterministic fifoFrontier_lawful _ _ _ _ _ (by decide) (by decide) 30

/-- C14: on a rectangular grid with at least one column, for every start and end,
`a_star_search` terminates: with enough budget for its two loops a run ends with one
path.  The main loop ends because every iteration that does not leave the frontier
smaller records a first cost for a cell or lowers the sum of the recorded costs; the
reconstruction loop ends because the cost recorded for the `came_from` entry of a
cell is non-negative and smaller than the cost of the cell, and only the start cell
has cost 0. -/
theorem a_star_search_always_terminates {W H : Nat} {grid : Grid} {q : Frontier}
    (hq : q.Lawful) (hr : Rect W H grid) (hW : 0 < W) (start end_ : Node) :
    (∃ N p, ∀ fuel, N ≤ fuel → a_star_search q fuel grid start end_ = .path p) ∧
    (∀ (k : Nat) (st : SearchState) (cur : Node) (rest : List Node),
      loopState q grid start end_ k = some st → q.pop st.open_set = some (cur, rest) →
      ¬ (cur.x = end_.x ∧ cur.y = end_.y) →
      ∃ st2, loopState q grid start end_ (k + 1) = some st2 ∧
        Progress W H { st with open_set := rest } st2) ∧
    (∀ (k : Nat) (st : SearchState) (c : Coord) (v : Int),
      loopState q grid start end_ k = some st → st.g_score c = some v →
      c ≠ start.coord →
      0 < v ∧ ∃ p u, st.came_from c = some p ∧ st.g_score p.coord = some u ∧
        0 ≤ u ∧ u < v) := by
  refine ⟨a_star_search_terminates hr hW hq start end_, ?_, ?_⟩
  · intro k st cur rest hk hpop hend
    obtain ⟨st2, hex, _, hprog⟩ := expand_spec hr hW hq end_ cur _
      (loopHead_pop hq (loopState_head hr hW hq start end_ k st hk) hpop hend)
    refine ⟨st2, ?_, hprog⟩
    simp only [loopState, hk, loopStep, hpop, if_neg hend]
    exact hex
  · intro k st c v hk hc hcs
    obtain ⟨hstart, htree⟩ := loopState_tree hr hW hq start end_ k st hk
    obtain ⟨_, h1, p, hp, _, u, hu, hle⟩ := htree c v hc hcs
    refine ⟨by omega, p, u, hp, hu, ?_, by omega⟩
    by_cases hps : p.coord = start.coord
    · rw [hps, hstart] at hu
      cases hu
      exact le_refl _
    · have := (htree _ _ hu hps).2.1
      omega

/-- Witness for C14: the 3 by 3 grid with `(1,1)` blocked, from `(0,0)` to `(2,2)`. -/
theorem a_star_search_always_terminates_witness :
    (∃ N p, ∀ fuel, N ≤ fuel →
      a_star_search fifoFrontier fuel
        [[false, false, false], [false, true, false], [false, false, false]]
        { x := 0, y := 0 } { x := 2, y := 2 } = .path p) ∧
    (∀ (k : Nat) (st : SearchState) (cur : Node) (rest : List Node),
      loopState fifoFrontier
          [[false, false, false], [false, true, false], [false, false, false]]
          { x := 0, y := 0 } { x := 2, y := 2 } k = some st →
      fifoFrontier.pop st.open_set = some (cur, rest) →
      ¬ (cur.x = ({ x := 2, y := 2 } : Node).x ∧ cur.y = ({ x := 2, y := 2 } : Node).y) →
      ∃ st2, loopState fifoFrontier
          [[false, false, false], [false, true, false], [false, false, false]]
          { x := 0, y := 0 } { x := 2, y := 2 } (k + 1) = some st2 ∧
        Progress 3 3 { st with open_set := rest } st2) ∧
    (∀ (k : Nat) (st : SearchState) (c : Coord) (v : Int),
      loopState fifoFrontier
          [[false, false, false], [false, true, false], [false, false, false]]
          { x := 0, y := 0 } { x := 2, y := 2 } k = some st →
      st.g_score c = some v → c ≠ ({ x := 0, y := 0 } : Node).coord →
      0 < v ∧ ∃ p u, st.came_from c = some p ∧ st.g_score p.coord = some u ∧
        0 ≤ u ∧ u < v) :=
  a_star_search_always_terminates fifoFrontier_lawful
    (by decide : Rect 3 3 [[false, false, false], [false, true, false], [false, false, false]])
    (by decide) { x := 0, y := 0 } { x := 2, y := 2 }

/-- C15: the relaxation invariant.  On a rectangular grid with at least one column,
at the head of every iteration of the main loop `g_score[start]` is 0; every other
cell `n` with a `g_score` entry `v` is in range and not blocked, `v >= 1` is the
number of steps of a walk from the start cell to `n` whose steps go to 4-adjacent
unblocked cells, and `came_from[n]` is a cell 4-adjacent to `n` whose entry `u` has
`u + 1 <= v`; and from one iteration to the next an entry stays or is replaced by a
strictly smaller value. -/
theorem a_star_search_relaxation_invariant {W H : Nat} {grid : Grid} {q : Frontier}
    (hq : q.Lawful) (hr : Rect W H grid) (hW : 0 < W) (start end_ : Node) (k : Nat)
    (st : SearchState) (hk : loopState q grid start end_ k = some st) :
    st.g_score start.coord = some 0 ∧
    (∀ (n : Coord) (v : Int), n ≠ start.coord → st.g_score n = some v →
      (0 ≤ n.1 ∧ n.1 < W ∧ 0 ≤ n.2 ∧ n.2 < H ∧ gridAt grid n.1 n.2 = some false) ∧
      1 ≤ v ∧
      (∃ w, IsWalk grid w ∧ w.head? = some start.coord ∧ w.getLast? = some n ∧
        (w.length : Int) = v + 1) ∧
      ∃ p, st.came_from n = some p ∧ n ∈ neighbors p.coord ∧
        ∃ u, st.g_score p.coord = some u ∧ u + 1 ≤ v) ∧
    (∀ st2, loopState q grid start end_ (k + 1) = some st2 →
      ∀ (n : Coord) (v : Int), st.g_score n = some v →
        ∃ v2, st2.g_score n = some v2 ∧ (v2 = v ∨ v2 < v)) := by
  obtain ⟨hstart, htree⟩ := loopState_tree hr hW hq start end_ k st hk
  refine ⟨hstart, fun n v hns hn => ?_, fun st2 h2 =>
    loopStep_costsFall hr hW hq start end_ k st st2 hk h2⟩
  obtain ⟨hval, h1, hcame⟩ := htree n v hn hns
  have hin := valid_inRange hr hval
  exact ⟨⟨hin.1, hin.2.1, hin.2.2.1, hin.2.2.2, hval.2.2⟩, h1,
    loopState_costsAreWalks hr hW hq start end_ k st hk n v hn, hcame⟩

/-- Witness for C15: the state at the head of the second iteration on the 3 by 3
grid with `(1,1)` blocked, from `(0,0)` to `(2,2)`. -/
theorem a_star_search_relaxation_invariant_witness :
    stateAfterStart.g_score ({ x := 0, y := 0 } : Node).coord = some 0 ∧
    (∀ (n : Coord) (v : Int), n ≠ ({ x := 0, y := 0 } : Node).coord →
      stateAfterStart.g_score n = some v →
      (0 ≤ n.1 ∧ n.1 < (3 : Nat) ∧ 0 ≤ n.2 ∧ n.2 < (3 : Nat) ∧
        gridAt [[false, false, false], [false, true, false], [false, false, false]]
          n.1 n.2 = some false) ∧
      1 ≤ v ∧
      (∃ w, IsWalk [[false, false, false], [false, true, false], [false, false, false]] w ∧
        w.head? = some ({ x := 0, y := 0 } : Node).coord ∧ w.getLast? = some n ∧
        (w.length : Int) = v + 1) ∧
      ∃ p, stateAfterStart.came_from n = some p ∧ n ∈ neighbors p.coord ∧
        ∃ u, stateAfterStart.g_score p.coord = some u ∧ u + 1 ≤ v) ∧
    (∀ st2, loopState fifoFrontier
        [[false, false, false], [false, true, false], [false, false, false]]
        { x := 0, y := 0 } { x := 2, y := 2 } (1 + 1) = some st2 →
      ∀ (n : Coord) (v : Int), stateAfterStart.g_score n = some v →
        ∃ v2, st2.g_score n = some v2 ∧ (v2 = v ∨ v2 < v)) :=
  a_star_search_relaxation_invariant fifoFrontier_lawful
    (by decide : Rect 3 3 [[false, false, false], [false, true, false], [false, false, false]])
    (by decide) { x := 0, y := 0 } { x := 2, y := 2 } 1 stateAfterStart rfl

/-- C16: when start and end have the same coordinates, a run with any budget of at
least one step returns the one-node path `[end]`, on every grid, be it empty, and
whether the cell is free, blocked or out of range: the main loop is left in its
first iteration, before the `for` loop over the neighbours. -/
theorem a_star_search_same_cell {q : Frontier} (hq : q.Lawful) (grid : Grid)
    (start end_ : Node) (h : start.coord = end_.coord) (fuel : Nat) (hf : 0 < fuel) :
    a_star_search q fuel grid start end_ = .path [end_] ∧
      loopState q grid start end_ 1 = none := by
  have hx : start.x = end_.x := congrArg Prod.fst h
  have hy : start.y = end_.y := congrArg Prod.snd h
  constructor
  · obtain ⟨n, rfl⟩ : ∃ n, fuel = n + 1 := ⟨fuel - 1, by omega⟩
    rw [a_star_search_succ hq, if_pos ⟨hx, hy⟩, reconstruct_same _ _ _ _ hx hy]
  · have hpop : q.pop (initState q start).open_set = some (start, []) := pop_init hq start
    simp only [loopState, loopStep, hpop, hx, hy, and_self, if_true]

/-- Witness for C16: the grid of the single blocked cell `(0,0)`, from `(0,0)` to
`(0,0)`. -/
theorem a_star_search_same_cell_witness :
    a_star_search fifoFrontier 1 [[true]] { x := 0, y := 0 }
        { x := 0, y := 0, g := 4, h := 2, f := 6 } =
      .path [{ x := 0, y := 0, g := 4, h := 2, f := 6 }] ∧
    loopState fifoFrontier [[true]] { x := 0, y := 0 }
      { x := 0, y := 0, g := 4, h := 2, f := 6 } 1 = none :=
  a_star_search_same_cell fifoFrontier_lawful [[true]] { x := 0, y := 0 }
    { x := 0, y := 0, g := 4, h := 2, f := 6 } rfl 1 (by decide)

/-! ## Claims about the selection -/

/-- C9: invalid selections change nothing.  A left press on a busy cell, in any
state of the scene, and a left press on the start cell itself in manual mode with
only the start chosen, both leave the whole state as it was: start, end and every
mark of every box. -/
theorem mousePressEvent_invalid_unchanged (sc : Scene) (c : Coord)
    (h : (∃ b, sc.boxes c = some b ∧ b.m_isBusy = true) ∨
      (sc.m_startAnimated = false ∧ sc.m_startItem = some c ∧ sc.m_endItem = none)) :
    (mousePressEvent .left c sc).1 = sc := by
  obtain ⟨an, cu, st, en, bx⟩ := sc
  rcases h with ⟨b, hb, hbusy⟩ | ⟨hm, hs, he⟩
  · simp only at hb
    unfold mousePressEvent
    simp only [hb, hbusy]
    split
    · rename_i hc; exact absurd hc.1 (by decide)
    · split <;> rfl
  · simp only at hm hs he
    subst hm hs he
    unfold mousePressEvent
    simp only
    cases hbx : bx c with
    | none => simp
    | some item => cases hbusy : item.m_isBusy <;> simp [hbusy]

/-- Witness for C9: in manual mode with `(0,0)` chosen as start, a left press on
`(0,0)` itself. -/
theorem mousePressEvent_invalid_unchanged_witness :
    (mousePressEvent .left (0, 0) sceneStartChosen).1 = sceneStartChosen :=
  mousePressEvent_invalid_unchanged sceneStartChosen (0, 0) (Or.inr ⟨rfl, rfl, rfl⟩)

/-- C10, as the code has it: in manual mode with both start and end chosen, a left
press on a cell that is not busy gives the state that `clearScene(false)` followed
by the same press gives, with the pressed cell as start and no end; a left press
on a busy cell is turned down before anything is cleared and leaves the state as
it was. -/
theorem mousePressEvent_both_chosen (sc : Scene) (a b c : Coord) (box : Box)
    (hmode : sc.m_startAnimated = false) (hs : sc.m_startItem = some a)
    (he : sc.m_endItem = some b) (hbox : sc.boxes c = some box) :
    (box.m_isBusy = false →
      mousePressEvent .left c sc = mousePressEvent .left c (clearScene false sc) ∧
        (mousePressEvent .left c sc).1.m_startItem = some c ∧
        (mousePressEvent .left c sc).1.m_endItem = none) ∧
    (box.m_isBusy = true → mousePressEvent .left c sc = (sc, some .cellNotAvailable)) := by
  obtain ⟨an, cu, st, en, bx⟩ := sc
  simp only at hmode hs he hbox
  subst hmode hs he
  constructor
  · intro hfree
    have hlook : ∃ box2, setEnd (setStart bx a false) b false c = some box2 ∧
        box2.m_isBusy = false := by
      unfold setEnd setStart
      by_cases h1 : c = b <;> by_cases h2 : c = a <;> simp [h1, h2, hbox, hfree] <;>
        simp_all
    obtain ⟨box2, hb2, hfree2⟩ := hlook
    unfold mousePressEvent
    simp [clearScene, hbox, hfree, hb2, hfree2]
  · intro hbusy
    unfold mousePressEvent
    simp [hbox, hbusy]

/-- Witness for C10: the scene with `(0,0)` as start, `(1,0)` as end and `(2,0)`
busy; the free cell `(1,0)` is pressed. -/
theorem mousePressEvent_both_chosen_witness :
    (({ m_end := true } : Box).m_isBusy = false →
      mousePressEvent .left (1, 0) sceneBothChosen =
          mousePressEvent .left (1, 0) (clearScene false sceneBothChosen) ∧
        (mousePressEvent .left (1, 0) sceneBothChosen).1.m_startItem = some (1, 0) ∧
        (mousePressEvent .left (1, 0) sceneBothChosen).1.m_endItem = none) ∧
    (({ m_end := true } : Box).m_isBusy = true →
      mousePressEvent .left (1, 0) sceneBothChosen =
        (sceneBothChosen, some .cellNotAvailable)) :=
  mousePressEvent_both_chosen sceneBothChosen (0, 0) (1, 0) (1, 0) { m_end := true }
    rfl rfl rfl (by decide)

/-- Counterexample to C10 as stated: with `(0,0)` as start and `(1,0)` as end, a left
press on the busy cell `(2,0)` keeps the start, whereas `clearScene(false)`
followed by the same press leaves no start. -/
theorem mousePressEvent_both_chosen_counterexample :
    (mousePressEvent .left (2, 0) sceneBothChosen).1.m_startItem = some (0, 0) ∧
    (mousePressEvent .left (2, 0) (clearScene false sceneBothChosen)).1.m_startItem = none ∧
    (mousePressEvent .left (2, 0) sceneBothChosen).1.m_startItem ≠
      (mousePressEvent .left (2, 0) (clearScene false sceneBothChosen)).1.m_startItem :=
  ⟨by decide, by decide, by decide⟩

/-- C11, evaluated where the code breaks it.  From the scene with nothing selected:
live mode is switched on, the free cell `(0,0)` is pressed and becomes the start,
the pointer moves over `(1,0)` and then back over `(0,0)`: start and end are both
set and are the same cell.  When the pointer moves over the busy cell `(2,0)`
instead, the end is that busy cell. -/
theorem mouseMoveEvent_end_unchecked :
    ((mouseMoveEvent (0, 0) (mouseMoveEvent (1, 0)
        (mousePressEvent .left (0, 0) (startAnimated true sceneEmpty)).1).1).1.m_startItem =
      some (0, 0) ∧
     (mouseMoveEvent (0, 0) (mouseMoveEvent (1, 0)
        (mousePressEvent .left (0, 0) (startAnimated true sceneEmpty)).1).1).1.m_endItem =
      some (0, 0) ∧
     (mouseMoveEvent (0, 0) (mouseMoveEvent (1, 0)
        (mousePressEvent .left (0, 0) (startAnimated true sceneEmpty)).1).1).2 = true) ∧
    ((mouseMoveEvent (2, 0)
        (mousePressEvent .left (0, 0) (startAnimated true sceneEmpty)).1).1.m_endItem =
      some (2, 0) ∧
     (sceneEmpty.boxes (2, 0)).map Box.m_isBusy = some true ∧
     (mouseMoveEvent (2, 0)
        (mousePressEvent .left (0, 0) (startAnimated true sceneEmpty)).1).2 = true) := by
  decide

theorem setStart_box (boxes : Coord → Option Box) (a c : Coord) (v : Bool) {box : Box}
    (h : boxes c = some box) :
    ∃ box2, setStart boxes a v c = some box2 ∧ box2.m_isBusy = box.m_isBusy := by
  unfold setStart
  by_cases hc : c = a
  · rw [if_pos hc, h]; exact ⟨_, rfl, rfl⟩
  · rw [if_neg hc]; exact ⟨box, h, rfl⟩

theorem setEnd_box (boxes : Coord → Option Box) (a c : Coord) (v : Bool) {box : Box}
    (h : boxes c = some box) :
    ∃ box2, setEnd boxes a v c = some box2 ∧ box2.m_isBusy = box.m_isBusy := by
  unfold setEnd
  by_cases hc : c = a
  · rw [if_pos hc, h]; exact ⟨_, rfl, rfl⟩
  · rw [if_neg hc]; exact ⟨box, h, rfl⟩

theorem clearScene_selection (sc : Scene) :
    (clearScene false sc).m_startItem = none ∧ (clearScene false sc).m_endItem = none := by
  obtain ⟨an, cu, st, en, bx⟩ := sc
  cases st <;> cases en <;> simp [clearScene]

/-- The sibling path of the pointer move: presses, changes of mode and resets keep
the selection sound. -/
theorem applyClick_selectionOk (sc : Scene) (ev : ClickEvent) (h : SelectionOk sc) :
    SelectionOk (applyClick sc ev) := by
  have hclear : ∀ b : Bool, SelectionOk { clearScene false sc with m_startAnimated := b } := by
    intro b
    obtain ⟨h1, h2⟩ := clearScene_selection sc
    constructor
    · intro a ha
      simp only at ha
      rw [h1] at ha
      exact absurd ha (by simp)
    · intro a ha
      simp only at ha
      rw [h2] at ha
      exact absurd ha (by simp)
  cases ev with
  | reset =>
    have := hclear (clearScene false sc).m_startAnimated
    exact this
  | setMode live => exact hclear live
  | press button pos =>
    simp only [applyClick]
    unfold mousePressEvent
    split
    · exact hclear true
    · split
      · exact h
      · cases hbox : sc.boxes pos with
        | none => exact h
        | some item =>
          simp only
          by_cases hbusy : item.m_isBusy = true
          · rw [if_pos hbusy]; exact h
          · rw [if_neg hbusy]
            have hfree : item.m_isBusy = false := by simpa using hbusy
            obtain ⟨an, cu, st, en, bx⟩ := sc
            obtain ⟨hs, he⟩ := h
            simp only at hs he hbox
            cases st with
            | none =>
              cases en with
              | none =>
                simp only
                constructor
                · intro a ha
                  simp only [Option.some.injEq] at ha
                  subst ha
                  obtain ⟨b2, hb2, hf2⟩ := setStart_box bx pos pos true hbox
                  exact ⟨b2, hb2, hf2.trans hfree⟩
                · intro b hb
                  simp at hb
              | some e0 =>
                obtain ⟨_, a, ha, _⟩ := he e0 rfl
                exact absurd ha (by simp)
            | some s0 =>
              cases en with
              | none =>
                simp only
                by_cases hsp : s0 = pos
                · rw [if_pos hsp]
                  simp only
                  exact ⟨hs, fun b hb => absurd hb (by simp)⟩
                · rw [if_neg hsp]
                  simp only
                  constructor
                  · intro a ha
                    obtain ⟨bb, hbb, hbf⟩ := hs a ha
                    obtain ⟨b2, hb2, hf2⟩ := setEnd_box bx pos a true hbb
                    exact ⟨b2, hb2, hf2.trans hbf⟩
                  · intro b hb
                    simp only [Option.some.injEq] at hb
                    subst hb
                    obtain ⟨b2, hb2, hf2⟩ := setEnd_box bx pos pos true hbox
                    exact ⟨⟨b2, hb2, hf2.trans hfree⟩, s0, rfl, hsp⟩
              | some e0 =>
                simp only
                constructor
                · intro a ha
                  simp only [Option.some.injEq] at ha
                  subst ha
                  obtain ⟨b1, hb1, hf1⟩ := setStart_box bx s0 pos false hbox
                  obtain ⟨b2, hb2, hf2⟩ := setEnd_box (setStart bx s0 false) e0 pos false hb1
                  obtain ⟨b3, hb3, hf3⟩ :=
                    setStart_box (setEnd (setStart bx s0 false) e0 false) pos pos true hb2
                  exact ⟨b3, hb3, by rw [hf3, hf2, hf1, hfree]⟩
                · intro b hb
                  simp at hb

/-- From a sound selection, in particular from the empty one, every sequence of
presses, changes of mode and resets leads to a sound selection. -/
theorem clicks_selectionOk :
    ∀ (evs : List ClickEvent) (sc : Scene), SelectionOk sc →
      SelectionOk (evs.foldl applyClick sc)
  | [], _, h => h
  | ev :: evs, sc, h => clicks_selectionOk evs _ (applyClick_selectionOk sc ev h)

/-! ## Claims about the window -/

/-- C12, as the code has it: when a search that was not cancelled completes with an
empty path, `finish` returns before the rendering step, so the lines drawn before
and the number shown stay as they were; a non-empty result is handed to
`paintPath`, which replaces the lines and shows the number of its nodes; a
cancelled search changes nothing. -/
theorem finish_paints_nonempty_only (d : Display) (p : List Node) (hp : p ≠ []) :
    finish false [] d = d ∧
    finish false p d = paintPath p d ∧
    (finish false p d).lbResult = p.length ∧
    (finish false p d).m_currentPath =
      (List.zip p p.tail).map (fun ab => (ab.1.coord, ab.2.coord)) ∧
    finish true p d = d := by
  have hne : p.isEmpty = false := by
    cases p with
    | nil => exact absurd rfl hp
    | cons a t => rfl
  simp [finish, hne, paintPath, deletePath]

/-- Witness for C12: the display of a two-node path receives the three-node path
`(0,0), (1,0), (2,0)`. -/
theorem finish_paints_nonempty_only_witness :
    finish false [] displayTwoNodes = displayTwoNodes ∧
    finish false [{ x := 0, y := 0 }, { x := 1, y := 0 }, { x := 2, y := 0 }] displayTwoNodes =
      paintPath [{ x := 0, y := 0 }, { x := 1, y := 0 }, { x := 2, y := 0 }] displayTwoNodes ∧
    (finish false [{ x := 0, y := 0 }, { x := 1, y := 0 }, { x := 2, y := 0 }]
      displayTwoNodes).lbResult =
      [({ x := 0, y := 0 } : Node), { x := 1, y := 0 }, { x := 2, y := 0 }].length ∧
    (finish false [{ x := 0, y := 0 }, { x := 1, y := 0 }, { x := 2, y := 0 }]
      displayTwoNodes).m_currentPath =
      (List.zip [({ x := 0, y := 0 } : Node), { x := 1, y := 0 }, { x := 2, y := 0 }]
        [({ x := 0, y := 0 } : Node), { x := 1, y := 0 }, { x := 2, y := 0 }].tail).map
        (fun ab => (ab.1.coord, ab.2.coord)) ∧
    finish true [{ x := 0, y := 0 }, { x := 1, y := 0 }, { x := 2, y := 0 }] displayTwoNodes =
      displayTwoNodes :=
  finish_paints_nonempty_only displayTwoNodes
    [{ x := 0, y := 0 }, { x := 1, y := 0 }, { x := 2, y := 0 }] (by decide)

/-- Counterexample to C12 as stated: with a two-node path on display, a completed
search with the empty path leaves the line and the number 2 in place, whereas
handing the empty path to `paintPath` would remove the line and show 0. -/
theorem finish_paints_nonempty_only_counterexample :
    (finish false [] displayTwoNodes).m_currentPath = [((0, 0), (0, 1))] ∧
    (finish false [] displayTwoNodes).lbResult = 2 ∧
    (paintPath [] displayTwoNodes).m_currentPath = [] ∧
    (paintPath [] displayTwoNodes).lbResult = 0 ∧
    finish false [] displayTwoNodes ≠ paintPath [] displayTwoNodes := by
  decide

end FindPath
